import Mathlib

/-!
# Verification of the clod chat-driven agent execution bridge

A shallow embedding of the core data model and operations of the `clod`
bot (Go sources under `bot/`), together with theorems settling the
specification claims about permission-rule matching, the dispatcher's
auto-approval path, session-store persistence, the task runner's result
classification and tool-result emission, similar-pattern generation,
the Markdown→mrkdwn transformation, follow-up input handling, the task
registry, and attachment downloads.

Strings are modelled as `List Char` (`Str`), so that every string
operation of the Go source (prefix/suffix tests, substring search,
whitespace splitting, slicing) is an executable Lean function amenable
to proof.
-/

/-- Strings of the Go program, modelled as lists of characters. -/
abbrev Str := List Char

namespace Clod

/-- Go `strings.Contains(s, sub)`: `sub` occurs as a contiguous substring of
`s`.  Mirrors Go semantics: the empty string is contained in every
string. -/
def containsStr (s sub : Str) : Bool :=
  if sub.isPrefixOf s then true
  else
    match s with
    | [] => false
    | _ :: rest => containsStr rest sub

/-- Whitespace recognizer used by `strings.Fields` (ASCII fragment of
`unicode.IsSpace`, which covers every character the bot ever feeds it). -/
def isSpaceChar (c : Char) : Bool :=
  c = ' ' || c = '\t' || c = '\n' || c = '\x0d' || c = '\x0b' || c = '\x0c'

/-- The first whitespace-separated token of `s`:
`parts := strings.Fields(s)` followed by `parts[0]` under a
`len(parts) > 0` guard.  `none` when `s` is empty or all whitespace. -/
def firstField (s : Str) : Option Str :=
  let s1 := s.dropWhile isSpaceChar
  if s1 = [] then none else some (s1.takeWhile (fun c => !isSpaceChar c))

/-- The tool input map `map[string]any`, restricted to the string-valued
keys the embedded functions consult (`command`, `file_path`, `url`,
`query`).  A missing key, or a key whose value is not a string (so that
the Go type assertion `.(string)` fails), is `none`. -/
structure ToolInput where
  command : Option Str := none
  file_path : Option Str := none
  url : Option Str := none
  query : Option Str := none
deriving DecidableEq, Repr

/-- The string `"Bash"`. -/
def bashS : Str := "Bash".toList
/-- The string `"Write"`. -/
def writeS : Str := "Write".toList
/-- The string `"Edit"`. -/
def editS : Str := "Edit".toList
/-- The string `"Read"`. -/
def readS : Str := "Read".toList
/-- The string `"WebFetch"`. -/
def webFetchS : Str := "WebFetch".toList
/-- The string `"WebSearch"`. -/
def webSearchS : Str := "WebSearch".toList

/-- Go `matchesPermissionRule` (handler source): does a saved permission
rule string match a live `(tool, input)` request?

Direct translation of the Go function: an exact tool-name match; else,
when the rule reads `tool(pattern)`, a `pattern` ending in `:*` matches
a Bash command whose first field equals the prefix or a
Write/Edit/Read path containing `/<prefix>/` or starting `prefix/`;
a `pattern` ending in `**` matches a Write/Edit/Read path containing
`/<dirPrefix>` or starting `dirPrefix`.  The slice
`rule[len(tool)+1 : len(rule)-1]` is `(rule.drop (tool.length+1)).dropLast`,
and `strings.TrimSuffix` of a two-character suffix known to be present
is `dropLast.dropLast`. -/
def matchesPermissionRule (rule tool : Str) (input : ToolInput) : Bool :=
  if rule = tool then true
  else if (tool ++ ['(']).isPrefixOf rule && [')'].isSuffixOf rule then
    let pat := (rule.drop (tool.length + 1)).dropLast
    let colonStarCase :=
      if [':', '*'].isSuffixOf pat then
        let pfx := pat.dropLast.dropLast
        (if tool = bashS then
          match input.command with
          | some cmd =>
            match firstField cmd with
            | some tok => tok = pfx
            | none => false
          | none => false
        else false)
        ||
        (if tool = writeS || tool = editS || tool = readS then
          match input.file_path with
          | some path =>
            containsStr path ('/' :: pfx ++ ['/']) || (pfx ++ ['/']).isPrefixOf path
          | none => false
        else false)
      else false
    let globCase :=
      if ['*', '*'].isSuffixOf pat then
        let dirPfx := pat.dropLast.dropLast
        if tool = writeS || tool = editS || tool = readS then
          match input.file_path with
          | some path =>
            containsStr path ('/' :: dirPfx) || dirPfx.isPrefixOf path
          | none => false
        else false
      else false
    colonStarCase || globCase
  else false

/-- The specification's rule-matching relation, written from the spec's
words: the rule equals the tool name; or the rule has the form
`tool(prefix:*)` and (for Bash) the first whitespace-separated token of
`input.command` equals `prefix`, or (for Write/Edit/Read)
`input.file_path` contains `/<prefix>/` or starts with `prefix/`; or the
rule has the form `tool(dirPrefix**)` and (for Write/Edit/Read)
`input.file_path` contains `/<dirPrefix>` or starts with `dirPrefix`. -/
def SpecRuleMatch (rule tool : Str) (input : ToolInput) : Prop :=
  rule = tool
  ∨ (∃ pfx : Str,
      rule = tool ++ ['('] ++ pfx ++ [':', '*', ')'] ∧
      ((tool = bashS ∧ ∃ cmd, input.command = some cmd ∧ firstField cmd = some pfx)
        ∨ ((tool = writeS ∨ tool = editS ∨ tool = readS) ∧
            ∃ path, input.file_path = some path ∧
              (('/' :: pfx ++ ['/']) <:+: path ∨ (pfx ++ ['/']) <+: path))))
  ∨ (∃ dirPfx : Str,
      rule = tool ++ ['('] ++ dirPfx ++ ['*', '*', ')'] ∧
      (tool = writeS ∨ tool = editS ∨ tool = readS) ∧
      ∃ path, input.file_path = some path ∧
        (('/' :: dirPfx) <:+: path ∨ dirPfx <+: path))

/-- The test `containsStr` decides the sublist (substring) relation. -/
theorem containsStr_iff_infix (s sub : Str) : containsStr s sub = true ↔ sub <:+: s := by
  induction s with
  | nil =>
    rw [containsStr]
    split
    · rename_i hp
      simp only [List.isPrefixOf_iff_prefix, List.prefix_nil] at hp
      subst hp
      simp
    · rename_i hp
      simp only [List.isPrefixOf_iff_prefix, List.prefix_nil] at hp
      simp [List.infix_nil, hp]
  | cons c rest ih =>
    rw [containsStr]
    split
    · rename_i hp
      rw [List.isPrefixOf_iff_prefix] at hp
      simp only [true_iff]
      exact hp.isInfix
    · rename_i hp
      rw [List.isPrefixOf_iff_prefix] at hp
      rw [ih, List.infix_cons_iff]
      exact ⟨Or.inr, fun h => h.resolve_left hp⟩

/-- Appending two-element tails is injective in all three components. -/
theorem append_pair_eq {q d : Str} {a b c e : Char} :
    q ++ [a, b] = d ++ [c, e] ↔ q = d ∧ a = c ∧ b = e := by
  constructor
  · intro h
    have h' := congrArg List.reverse h
    simp only [List.reverse_append, List.reverse_cons, List.reverse_nil, List.nil_append,
      List.cons_append, List.cons.injEq] at h'
    obtain ⟨hb, ha, hq⟩ := h'
    exact ⟨List.reverse_injective hq, ha, hb⟩
  · rintro ⟨rfl, rfl, rfl⟩
    rfl

/-- A two-character suffix of `q ++ [c, d]` is exactly `[c, d]`. -/
theorem pair_suffix_iff {a b c d : Char} {q : Str} :
    [a, b] <:+ (q ++ [c, d]) ↔ a = c ∧ b = d := by
  constructor
  · rintro ⟨t, ht⟩
    obtain ⟨-, h1, h2⟩ := append_pair_eq.mp ht
    exact ⟨h1, h2⟩
  · rintro ⟨rfl, rfl⟩
    exact ⟨q, rfl⟩

/-- Appending singleton tails is injective in both components. -/
theorem append_singleton_eq {q d : Str} {a b : Char} :
    q ++ [a] = d ++ [b] ↔ q = d ∧ a = b := by
  constructor
  · intro h
    have h' := congrArg List.reverse h
    simp only [List.reverse_append, List.reverse_cons, List.reverse_nil, List.nil_append,
      List.cons_append, List.cons.injEq] at h'
    obtain ⟨ha, hq⟩ := h'
    exact ⟨List.reverse_injective hq, ha⟩
  · rintro ⟨rfl, rfl⟩
    rfl

/-- A rule that starts with `tool(` and ends with `)` decomposes as
`tool(mid)`. -/
theorem ruleShape {rule tool : Str}
    (h1 : (tool ++ ['(']).isPrefixOf rule = true)
    (h2 : [')'].isSuffixOf rule = true) :
    ∃ mid : Str, rule = tool ++ ['('] ++ mid ++ [')'] := by
  rw [List.isPrefixOf_iff_prefix] at h1
  rw [List.isSuffixOf_iff_suffix] at h2
  obtain ⟨t, ht⟩ := h1
  obtain ⟨s, hs⟩ := h2
  rcases List.eq_nil_or_concat t with rfl | ⟨mid, last, rfl⟩
  · exfalso
    rw [List.append_nil] at ht
    have h : s ++ [')'] = tool ++ ['('] := by rw [hs, ← ht]
    obtain ⟨-, hc⟩ := append_singleton_eq.mp h
    exact absurd hc (by decide)
  · have h : s ++ [')'] = (tool ++ ['('] ++ mid) ++ [last] := by
      rw [hs, ← ht]
      simp [List.append_assoc]
    obtain ⟨-, hc⟩ := append_singleton_eq.mp h
    refine ⟨mid, ?_⟩
    rw [← ht, ← hc]
    simp [List.append_assoc]

/-- The body of `matchesPermissionRule` for a rule of shape `tool(mid)`:
the `:*`-pattern case disjoined with the `**`-glob case, with the
extracted pattern `mid`. -/
def patMatchBool (mid tool : Str) (input : ToolInput) : Bool :=
  (if [':', '*'].isSuffixOf mid then
    let pfx := mid.dropLast.dropLast
    (if tool = bashS then
      match input.command with
      | some cmd =>
        match firstField cmd with
        | some tok => tok = pfx
        | none => false
      | none => false
    else false)
    ||
    (if tool = writeS || tool = editS || tool = readS then
      match input.file_path with
      | some path =>
        containsStr path ('/' :: pfx ++ ['/']) || (pfx ++ ['/']).isPrefixOf path
      | none => false
    else false)
  else false)
  ||
  (if ['*', '*'].isSuffixOf mid then
    let dirPfx := mid.dropLast.dropLast
    if tool = writeS || tool = editS || tool = readS then
      match input.file_path with
      | some path =>
        containsStr path ('/' :: dirPfx) || dirPfx.isPrefixOf path
      | none => false
    else false
  else false)

/-- The extracted-pattern slice of a `tool(mid)` rule is `mid`. -/
theorem pat_eval (tool mid : Str) :
    (((tool ++ ['('] ++ mid ++ [')']).drop (tool.length + 1)).dropLast : Str) = mid := by
  have h : tool ++ ['('] ++ mid ++ [')'] = (tool ++ ['(']) ++ (mid ++ [')']) := by
    simp [List.append_assoc]
  rw [h, List.drop_left' (by simp), List.dropLast_concat]

/-- A `tool(mid)` rule passes the prefix guard. -/
theorem shape_guard₁ (tool mid : Str) :
    (tool ++ ['(']).isPrefixOf (tool ++ ['('] ++ mid ++ [')']) = true := by
  rw [List.isPrefixOf_iff_prefix]
  exact ⟨mid ++ [')'], by simp [List.append_assoc]⟩

/-- A `tool(mid)` rule passes the suffix guard. -/
theorem shape_guard₂ (tool mid : Str) :
    [')'].isSuffixOf (tool ++ ['('] ++ mid ++ [')']) = true := by
  rw [List.isSuffixOf_iff_suffix]
  exact ⟨tool ++ ['('] ++ mid, rfl⟩

/-- On a rule of shape `tool(mid)` that is not the bare tool name,
`matchesPermissionRule` reduces to `patMatchBool`. -/
theorem matches_shape (tool mid : Str) (input : ToolInput)
    (hne : tool ++ ['('] ++ mid ++ [')'] ≠ tool) :
    matchesPermissionRule (tool ++ ['('] ++ mid ++ [')']) tool input
      = patMatchBool mid tool input := by
  rw [matchesPermissionRule, if_neg hne,
    if_pos (by rw [shape_guard₁, shape_guard₂]; rfl)]
  simp only [pat_eval, patMatchBool]

/-- Dropping the last element twice of `q ++ [a, b]` gives `q`. -/
theorem dropLast_pair (q : Str) (a b : Char) : (q ++ [a, b]).dropLast.dropLast = q := by
  have h : q ++ [a, b] = (q ++ [a]) ++ [b] := by simp
  rw [h, List.dropLast_concat, List.dropLast_concat]

/-- The Bash leaf of the `:*` case, as a proposition. -/
theorem bash_leaf_iff (tool pfx : Str) (input : ToolInput) :
    (if tool = bashS then
      match input.command with
      | some cmd =>
        match firstField cmd with
        | some tok => (tok = pfx : Bool)
        | none => false
      | none => false
    else false) = true
    ↔ (tool = bashS ∧ ∃ cmd, input.command = some cmd ∧ firstField cmd = some pfx) := by
  split
  · rename_i htool
    cases hcmd : input.command with
    | none => simp [htool, hcmd]
    | some cmd =>
      cases hff : firstField cmd with
      | none => simp [htool, hcmd, hff]
      | some tok => simp [htool, hcmd, hff, eq_comm]
  · rename_i htool
    simp [htool]

/-- The file-path leaf shared by the `:*` and `**` cases, as a
proposition. -/
theorem file_leaf_iff (tool sub pre : Str) (input : ToolInput) :
    (if tool = writeS || tool = editS || tool = readS then
      match input.file_path with
      | some path => containsStr path sub || pre.isPrefixOf path
      | none => false
    else false) = true
    ↔ ((tool = writeS ∨ tool = editS ∨ tool = readS) ∧
        ∃ path, input.file_path = some path ∧ (sub <:+: path ∨ pre <+: path)) := by
  split
  · rename_i htool
    rw [Bool.or_eq_true, Bool.or_eq_true, decide_eq_true_iff, decide_eq_true_iff,
      decide_eq_true_iff] at htool
    rw [or_assoc] at htool
    cases hpath : input.file_path with
    | none => simp [htool, hpath]
    | some path =>
      simp [htool, hpath, containsStr_iff_infix, List.isPrefixOf_iff_prefix]
  · rename_i htool
    rw [Bool.or_eq_true, Bool.or_eq_true, decide_eq_true_iff, decide_eq_true_iff,
      decide_eq_true_iff, or_assoc] at htool
    simp [htool]

/-- The pattern-part semantics of a `tool(mid)` rule, written from the
spec's words. -/
def PatSpec (mid tool : Str) (input : ToolInput) : Prop :=
  (∃ pfx, mid = pfx ++ [':', '*'] ∧
    ((tool = bashS ∧ ∃ cmd, input.command = some cmd ∧ firstField cmd = some pfx)
      ∨ ((tool = writeS ∨ tool = editS ∨ tool = readS) ∧
          ∃ path, input.file_path = some path ∧
            (('/' :: pfx ++ ['/']) <:+: path ∨ (pfx ++ ['/']) <+: path))))
  ∨ (∃ dirPfx, mid = dirPfx ++ ['*', '*'] ∧
      (tool = writeS ∨ tool = editS ∨ tool = readS) ∧
      ∃ path, input.file_path = some path ∧
        (('/' :: dirPfx) <:+: path ∨ dirPfx <+: path))

/-- The function `patMatchBool` decides `PatSpec`. -/
theorem patMatchBool_iff (mid tool : Str) (input : ToolInput) :
    patMatchBool mid tool input = true ↔ PatSpec mid tool input := by
  rw [patMatchBool, PatSpec, Bool.or_eq_true]
  by_cases h1 : [':', '*'].isSuffixOf mid = true
  · obtain ⟨q, rfl⟩ := List.isSuffixOf_iff_suffix.mp h1
    have hs2 : (['*', '*'].isSuffixOf (q ++ [':', '*'])) = false := by
      rw [Bool.eq_false_iff]
      intro hc
      obtain ⟨hc1, -⟩ := pair_suffix_iff.mp (List.isSuffixOf_iff_suffix.mp hc)
      exact absurd hc1 (by decide)
    rw [if_pos h1, hs2]
    simp only [Bool.false_eq_true, if_false, or_false, dropLast_pair]
    rw [Bool.or_eq_true, bash_leaf_iff, file_leaf_iff]
    constructor
    · intro h
      exact Or.inl ⟨q, rfl, h⟩
    · rintro (⟨pfx, heq, h⟩ | ⟨d, heq, -⟩)
      · obtain rfl := List.append_cancel_right heq
        exact h
      · obtain ⟨-, hc, -⟩ := append_pair_eq.mp heq
        exact absurd hc (by decide)
  · rw [if_neg h1]
    simp only [Bool.false_eq_true, false_or]
    by_cases h2 : ['*', '*'].isSuffixOf mid = true
    · obtain ⟨q, rfl⟩ := List.isSuffixOf_iff_suffix.mp h2
      rw [if_pos h2]
      simp only [dropLast_pair]
      rw [file_leaf_iff]
      constructor
      · intro h
        exact Or.inr ⟨q, rfl, h⟩
      · rintro (⟨pfx, heq, -⟩ | ⟨d, heq, h⟩)
        · obtain ⟨-, hc, -⟩ := append_pair_eq.mp heq
          exact absurd hc (by decide)
        · obtain rfl := List.append_cancel_right heq
          exact h
    · rw [if_neg h2]
      simp only [Bool.false_eq_true, false_iff]
      rintro (⟨pfx, heq, -⟩ | ⟨d, heq, -⟩)
      · exact h1 (List.isSuffixOf_iff_suffix.mpr ⟨pfx, heq.symm⟩)
      · exact h2 (List.isSuffixOf_iff_suffix.mpr ⟨d, heq.symm⟩)

/-- C1.  Permission rule matching: for every rule string and live
request `(tool, input)`, `matchesPermissionRule` returns `true` exactly
when the spec's matching relation holds: the rule equals the tool name;
or the rule has the form `tool(prefix:*)` and, for Bash, the first
whitespace-separated token of `input.command` equals `prefix`, or, for
Write/Edit/Read, `input.file_path` contains `/<prefix>/` or starts with
`prefix/`; or the rule has the form `tool(dirPrefix**)` and, for
Write/Edit/Read, `input.file_path` contains `/<dirPrefix>` or starts
with `dirPrefix`; and in every other case it returns `false`. -/
theorem matchesPermissionRule_iff_spec (rule tool : Str) (input : ToolInput) :
    matchesPermissionRule rule tool input = true ↔ SpecRuleMatch rule tool input := by
  by_cases hrt : rule = tool
  · subst hrt
    rw [matchesPermissionRule, if_pos rfl]
    exact iff_of_true rfl (Or.inl rfl)
  · by_cases hg : ((tool ++ ['(']).isPrefixOf rule && [')'].isSuffixOf rule) = true
    · rw [Bool.and_eq_true] at hg
      obtain ⟨mid, rfl⟩ := ruleShape hg.1 hg.2
      rw [matches_shape _ _ _ hrt, patMatchBool_iff, PatSpec, SpecRuleMatch]
      constructor
      · rintro (⟨pfx, rfl, h⟩ | ⟨d, rfl, h⟩)
        · refine Or.inr (Or.inl ⟨pfx, ?_, h⟩)
          simp [List.append_assoc]
        · refine Or.inr (Or.inr ⟨d, ?_, h⟩)
          simp [List.append_assoc]
      · rintro (h | ⟨pfx, heq, h⟩ | ⟨d, heq, h⟩)
        · exact absurd h hrt
        · have hx : tool ++ ['('] ++ pfx ++ [':', '*', ')']
              = tool ++ ['('] ++ (pfx ++ [':', '*']) ++ [')'] := by
            simp [List.append_assoc]
          rw [hx] at heq
          have hm : mid = pfx ++ [':', '*'] :=
            List.append_cancel_left (List.append_cancel_right heq)
          exact Or.inl ⟨pfx, hm, h⟩
        · have hx : tool ++ ['('] ++ d ++ ['*', '*', ')']
              = tool ++ ['('] ++ (d ++ ['*', '*']) ++ [')'] := by
            simp [List.append_assoc]
          rw [hx] at heq
          have hm : mid = d ++ ['*', '*'] :=
            List.append_cancel_left (List.append_cancel_right heq)
          exact Or.inr ⟨d, hm, h⟩
    · rw [matchesPermissionRule, if_neg hrt, if_neg hg]
      simp only [Bool.false_eq_true, false_iff]
      rintro (h | ⟨pfx, heq, -⟩ | ⟨d, heq, -⟩)
      · exact hrt h
      · refine hg ?_
        rw [Bool.and_eq_true]
        subst heq
        refine ⟨?_, ?_⟩
        · simp [List.isPrefixOf_iff_prefix, List.prefix_append_right_inj]
        · rw [List.isSuffixOf_iff_suffix]
          exact ⟨tool ++ '(' :: (pfx ++ [':', '*']), by simp⟩
      · refine hg ?_
        rw [Bool.and_eq_true]
        subst heq
        refine ⟨?_, ?_⟩
        · simp [List.isPrefixOf_iff_prefix, List.prefix_append_right_inj]
        · rw [List.isSuffixOf_iff_suffix]
          exact ⟨tool ++ '(' :: (d ++ ['*', '*']), by simp⟩

/-! ## JSON values and the saved permission-rule configuration -/

/-- A JSON value as decoded by Go's `encoding/json` into `map[string]any`
(objects as association lists, numbers restricted to the integers the
embedded code paths ever look at — none). -/
inductive Json where
  | null : Json
  | bool (b : Bool) : Json
  | num (n : Int) : Json
  | str (s : Str) : Json
  | arr (elems : List Json) : Json
  | obj (fields : List (Str × Json)) : Json

/-- The Go type assertion `.(map[string]any)`. -/
def Json.asObj : Json → Option (List (Str × Json))
  | .obj fields => some fields
  | _ => none

/-- The Go type assertion `.([]any)`. -/
def Json.asArr : Json → Option (List Json)
  | .arr elems => some elems
  | _ => none

/-- The Go type assertion `.(string)`. -/
def Json.asStr : Json → Option Str
  | .str s => some s
  | _ => none

/-- Go `Handler.isPermissionAllowed`: reads
`<taskPath>/.clod/claude/claude.json` (here: `config`, `none` when the
read or parse fails), walks `projects[taskPath].allowedTools`, and
returns whether any string rule matches the request.  Non-string
entries are skipped (`continue`), and every failed type assertion
returns `false`. -/
def isPermissionAllowed (config : Option Json) (taskPath toolName : Str)
    (input : ToolInput) : Bool :=
  match config.bind Json.asObj with
  | none => false
  | some cfg =>
    match (List.lookup "projects".toList cfg).bind Json.asObj with
    | none => false
    | some projects =>
      match (List.lookup taskPath projects).bind Json.asObj with
      | none => false
      | some project =>
        match (List.lookup "allowedTools".toList project).bind Json.asArr with
        | none => false
        | some allowedTools =>
          allowedTools.any fun rule =>
            match rule with
            | .str ruleStr => matchesPermissionRule ruleStr toolName input
            | _ => false

/-! ## The dispatcher's permission-request branch (C2) -/

/-- A permission request as read from the permission FIFO (the fields
the dispatcher consults). -/
structure PermissionRequest where
  toolName : Str
  toolInput : ToolInput
  toolUseID : Str
deriving DecidableEq, Repr

/-- A permission response sent to the running task's permission sink. -/
structure PermissionResponse where
  behavior : Str
  message : Option Str := none
deriving DecidableEq, Repr

/-- The pending-permission record stored per thread while a prompt is
unanswered. -/
structure PendingPermission where
  messageTS : Str
  channelID : Str
  threadTS : Str
  toolName : Str
  toolInput : ToolInput
deriving DecidableEq, Repr

/-- The observable effects of the dispatcher's handling of one
permission request (the `case req := <-permRequests` branch of
`Handler.runClod`). -/
structure PermStepEffects where
  /-- whether `PostMessageBlocks` was invoked to post a prompt -/
  promptPosted : Bool
  /-- whether the pending output buffer was flushed first -/
  flushedFirst : Bool
  /-- the `PendingPermission` stored for the thread, if any -/
  pendingStored : Option PendingPermission
  /-- the responses sent to the task's permission sink -/
  responses : List PermissionResponse
deriving DecidableEq, Repr

/-- The dispatcher's handling of one permission request, translated from
`Handler.runClod`: if a saved rule matches, send `{behavior:"allow"}`
and continue; otherwise flush the output buffer and post a prompt —
on post failure send a deny, on success store a `PendingPermission`
carrying the posted message timestamp.  `postResult` is the outcome of
`PostMessageBlocks` (`some msgTS` on success). -/
def permRequestStep (config : Option Json) (taskPath : Str)
    (req : PermissionRequest) (channelID threadTS : Str)
    (postResult : Option Str) : PermStepEffects :=
  if isPermissionAllowed config taskPath req.toolName req.toolInput then
    { promptPosted := false, flushedFirst := false, pendingStored := none,
      responses := [{ behavior := "allow".toList }] }
  else
    match postResult with
    | none =>
      { promptPosted := true, flushedFirst := true, pendingStored := none,
        responses := [{ behavior := "deny".toList,
                        message := some "Failed to prompt user".toList }] }
    | some msgTS =>
      { promptPosted := true, flushedFirst := true,
        pendingStored := some
          { messageTS := msgTS, channelID := channelID, threadTS := threadTS,
            toolName := req.toolName, toolInput := req.toolInput },
        responses := [] }

/-- C2.  Auto-approval invariant: for every permission request for which
some saved rule matches (`isPermissionAllowed` returns `true`), no
permission prompt message is posted to chat, no `PendingPermission` is
recorded, and the response sent to the running task's permission sink is
exactly `{behavior:"allow"}`. -/
theorem auto_approval_invariant (config : Option Json) (taskPath : Str)
    (req : PermissionRequest) (channelID threadTS : Str) (postResult : Option Str)
    (h : isPermissionAllowed config taskPath req.toolName req.toolInput = true) :
    permRequestStep config taskPath req channelID threadTS postResult
      = { promptPosted := false, flushedFirst := false, pendingStored := none,
          responses := [{ behavior := "allow".toList, message := none }] } := by
  rw [permRequestStep.eq_def, if_pos h]

/-- Concrete configuration used in the C2 witness: the saved rule set
`["WebSearch"]` for task directory `/agents/demo`. -/
def witnessConfig : Json :=
  .obj [("projects".toList,
    .obj [("/agents/demo".toList,
      .obj [("allowedTools".toList, .arr [.str "WebSearch".toList])])])]

/-- Witness for C2 at a concrete input: a `WebSearch` request against a
saved rule set containing `WebSearch` is auto-allowed with no prompt,
no pending record, and exactly one `{behavior:"allow"}` response. -/
theorem auto_approval_invariant_witness :
    isPermissionAllowed (some witnessConfig) "/agents/demo".toList webSearchS
        { query := some "x".toList } = true
    ∧ permRequestStep (some witnessConfig) "/agents/demo".toList
        { toolName := webSearchS, toolInput := { query := some "x".toList },
          toolUseID := "toolu_1".toList }
        "C1".toList "T1".toList (some "168.1".toList)
      = { promptPosted := false, flushedFirst := false, pendingStored := none,
          responses := [{ behavior := "allow".toList, message := none }] } :=
  ⟨by decide, auto_approval_invariant (some witnessConfig) "/agents/demo".toList
      { toolName := webSearchS, toolInput := { query := some "x".toList },
        toolUseID := "toolu_1".toList }
      "C1".toList "T1".toList (some "168.1".toList) (by decide)⟩

/-! ## Session store (C3) -/

/-- A Slack thread → clod session mapping (`SessionMapping` in
`session.go`).  The two `time.Time` fields are modelled as their opaque
serialized timestamps. -/
structure SessionMapping where
  channelID : Str
  threadTS : Str
  taskName : Str
  taskPath : Str
  sessionID : Str
  userID : Str
  verbose : Bool
  createdAt : Str
  updatedAt : Str
deriving DecidableEq, Repr

/-- Go `key(channelID, threadTS) = channelID + ":" + threadTS`. -/
def threadKey (channelID threadTS : Str) : Str :=
  channelID ++ ':' :: threadTS

/-- JSON encoding of a `SessionMapping`, with the struct tags of
`session.go`. -/
def sessionToJson (m : SessionMapping) : Json :=
  .obj [("channel_id".toList, .str m.channelID),
        ("thread_ts".toList, .str m.threadTS),
        ("task_name".toList, .str m.taskName),
        ("task_path".toList, .str m.taskPath),
        ("session_id".toList, .str m.sessionID),
        ("user_id".toList, .str m.userID),
        ("verbose".toList, .bool m.verbose),
        ("created_at".toList, .str m.createdAt),
        ("updated_at".toList, .str m.updatedAt)]

/-- The Go boolean field decode. -/
def Json.asBool : Json → Option Bool
  | .bool b => some b
  | _ => none

/-- JSON decoding of a `SessionMapping`: a non-object fails; a missing
field takes the Go zero value (as `encoding/json` leaves absent fields
untouched). -/
def sessionFromJson (j : Json) : Option SessionMapping :=
  match j with
  | .obj fields => some
    { channelID := ((List.lookup "channel_id".toList fields).bind Json.asStr).getD []
      threadTS := ((List.lookup "thread_ts".toList fields).bind Json.asStr).getD []
      taskName := ((List.lookup "task_name".toList fields).bind Json.asStr).getD []
      taskPath := ((List.lookup "task_path".toList fields).bind Json.asStr).getD []
      sessionID := ((List.lookup "session_id".toList fields).bind Json.asStr).getD []
      userID := ((List.lookup "user_id".toList fields).bind Json.asStr).getD []
      verbose := ((List.lookup "verbose".toList fields).bind Json.asBool).getD false
      createdAt := ((List.lookup "created_at".toList fields).bind Json.asStr).getD []
      updatedAt := ((List.lookup "updated_at".toList fields).bind Json.asStr).getD [] }
  | _ => none

/-- Go `SessionStore.Save`: serialize the snapshot of the in-memory map
(an association list keyed by `threadKey`) to a JSON array of its
values. -/
def saveSessions (store : List (Str × SessionMapping)) : Json :=
  .arr (store.map fun p => sessionToJson p.2)

/-- Go `SessionStore.Load`: parse a JSON array of `SessionMapping`s and
rebuild the in-memory map keyed by `key(channelID, threadTS)`. -/
def loadSessions (j : Json) : Option (List (Str × SessionMapping)) :=
  match j with
  | .arr elems =>
    (elems.mapM sessionFromJson).map fun ss =>
      ss.map fun s => (threadKey s.channelID s.threadTS, s)
  | _ => none

/-- Decoding inverts encoding on a single descriptor. -/
theorem sessionFromJson_toJson (m : SessionMapping) :
    sessionFromJson (sessionToJson m) = some m := rfl

/-- Decoding inverts encoding on a list of descriptors. -/
theorem mapM_sessionFromJson_map_toJson (ss : List SessionMapping) :
    (ss.map sessionToJson).mapM sessionFromJson = some ss := by
  induction ss with
  | nil => rfl
  | cons m rest ih =>
    rw [List.map_cons, List.mapM_cons, sessionFromJson_toJson, ih]
    rfl

/-- C3.  Session store round-trip: for every in-memory session map
(every entry stored under the key derived from its own descriptor,
as `Set` and `Load` maintain), `Save` produces a JSON array of
descriptors that `Load` parses back into the identical map. -/
theorem save_load_roundtrip (store : List (Str × SessionMapping))
    (hkeys : ∀ p ∈ store, p.1 = threadKey p.2.channelID p.2.threadTS) :
    loadSessions (saveSessions store) = some store := by
  rw [saveSessions, loadSessions]
  have hmap : (store.map fun p => sessionToJson p.2)
      = (store.map Prod.snd).map sessionToJson := by
    rw [List.map_map]
    rfl
  rw [hmap, mapM_sessionFromJson_map_toJson, Option.map]
  clear hmap
  congr 1
  rw [List.map_map]
  induction store with
  | nil => rfl
  | cons p rest ih =>
    have hp := hkeys p (List.mem_cons_self p rest)
    rw [List.map_cons]
    rw [ih fun q hq => hkeys q (List.mem_cons_of_mem p hq)]
    cases p with
    | mk k m =>
      simp only [Function.comp_apply] at hp ⊢
      rw [← hp]

/-- Witness for C3 at a concrete two-entry store. -/
theorem save_load_roundtrip_witness :
    (∀ p ∈ ([(threadKey "C1".toList "T1".toList,
        { channelID := "C1".toList, threadTS := "T1".toList,
          taskName := "demo".toList, taskPath := "/agents/demo".toList,
          sessionID := "s1".toList, userID := "U1".toList, verbose := false,
          createdAt := "2026-01-01T00:00:00Z".toList,
          updatedAt := "2026-01-02T00:00:00Z".toList })] :
        List (Str × SessionMapping)),
      p.1 = threadKey p.2.channelID p.2.threadTS)
    ∧ loadSessions (saveSessions
        [(threadKey "C1".toList "T1".toList,
          { channelID := "C1".toList, threadTS := "T1".toList,
            taskName := "demo".toList, taskPath := "/agents/demo".toList,
            sessionID := "s1".toList, userID := "U1".toList, verbose := false,
            createdAt := "2026-01-01T00:00:00Z".toList,
            updatedAt := "2026-01-02T00:00:00Z".toList })])
      = some [(threadKey "C1".toList "T1".toList,
          { channelID := "C1".toList, threadTS := "T1".toList,
            taskName := "demo".toList, taskPath := "/agents/demo".toList,
            sessionID := "s1".toList, userID := "U1".toList, verbose := false,
            createdAt := "2026-01-01T00:00:00Z".toList,
            updatedAt := "2026-01-02T00:00:00Z".toList })] :=
  ⟨by decide, save_load_roundtrip _ (by decide)⟩

/-! ## Task runner: terminal result classification (C4) -/

/-- The state of the deadline-bounded run context, `runCtx.Err()`:
`nil`, `context.DeadlineExceeded`, or `context.Canceled`. -/
inductive CtxStatus where
  | live
  | deadlineExceeded
  | canceled
deriving DecidableEq, Repr

/-- The error attached to a terminal `Result` by the PTY reader. -/
inductive RunError where
  /-- Go `oops.New("clod execution timed out after %v", r.timeout)` -/
  | timeout (timeoutMs : Nat)
  /-- Go `oops.New("clod execution was cancelled")` -/
  | cancelled
  /-- Go `oops.Trace(err)`: the underlying `cmd.Wait()` error -/
  | wrapped (msg : Str)
deriving DecidableEq, Repr

/-- The terminal `Result` of a clod execution. -/
structure RunResult where
  sessionID : Str
  output : Str
  error : Option RunError
deriving DecidableEq, Repr

/-- Synthesis of the terminal `Result` after the PTY scanner reaches EOF
and `cmd.Wait()` returns (`Runner.Start`, reader goroutine): `waitErr`
is the `cmd.Wait()` error message (`none` on a zero exit), `ctx` the
state of the deadline-bounded context. -/
def synthesizeResult (sessionID output : Str) (waitErr : Option Str)
    (ctx : CtxStatus) (timeoutMs : Nat) : RunResult :=
  { sessionID := sessionID
    output := output
    error :=
      match waitErr with
      | none => none
      | some e =>
        if ctx = CtxStatus.deadlineExceeded then some (RunError.timeout timeoutMs)
        else if ctx = CtxStatus.canceled then some RunError.cancelled
        else some (RunError.wrapped e) }

/-- C4.  Terminal result error classification: when the PTY reader
reaches EOF and the child wait returns, the synthesized `Result` has
error `Timeout(configured timeout)` if the wait failed and the
deadline-bounded context reports deadline exceeded, `Cancelled` if the
wait failed and that context reports cancellation, the underlying wait
error for any other nonzero exit, and no error when the process exited
with status zero. -/
theorem result_error_classification (sid out : Str) (waitErr : Option Str)
    (ctx : CtxStatus) (t : Nat) :
    ((∀ e, waitErr = some e → ctx = CtxStatus.deadlineExceeded →
        (synthesizeResult sid out waitErr ctx t).error = some (RunError.timeout t))
    ∧ (∀ e, waitErr = some e → ctx = CtxStatus.canceled →
        (synthesizeResult sid out waitErr ctx t).error = some RunError.cancelled)
    ∧ (∀ e, waitErr = some e → ctx = CtxStatus.live →
        (synthesizeResult sid out waitErr ctx t).error = some (RunError.wrapped e))
    ∧ (waitErr = none → (synthesizeResult sid out waitErr ctx t).error = none)) := by
  refine ⟨?_, ?_, ?_, ?_⟩
  · rintro e rfl rfl
    rfl
  · rintro e rfl rfl
    rfl
  · rintro e rfl rfl
    rfl
  · rintro rfl
    rfl

/-- Witness for C4 at concrete inputs, one per classification row. -/
theorem result_error_classification_witness :
    ((synthesizeResult "s1".toList "out".toList (some "signal: killed".toList)
        CtxStatus.deadlineExceeded 60000).error = some (RunError.timeout 60000))
    ∧ ((synthesizeResult "s1".toList "out".toList (some "signal: killed".toList)
        CtxStatus.canceled 60000).error = some RunError.cancelled)
    ∧ ((synthesizeResult "s1".toList "out".toList (some "exit status 1".toList)
        CtxStatus.live 60000).error
          = some (RunError.wrapped "exit status 1".toList))
    ∧ ((synthesizeResult "s1".toList "out".toList none CtxStatus.live 60000).error
          = none) :=
  ⟨(result_error_classification "s1".toList "out".toList (some "signal: killed".toList)
      CtxStatus.deadlineExceeded 60000).1 "signal: killed".toList rfl rfl,
   (result_error_classification "s1".toList "out".toList (some "signal: killed".toList)
      CtxStatus.canceled 60000).2.1 "signal: killed".toList rfl rfl,
   (result_error_classification "s1".toList "out".toList (some "exit status 1".toList)
      CtxStatus.live 60000).2.2.1 "exit status 1".toList rfl rfl,
   (result_error_classification "s1".toList "out".toList none CtxStatus.live
      60000).2.2.2 rfl⟩

/-! ## Task runner: tool-result emission (C5) -/

/-- The raw `content` field of a `tool_result` block
(`json.RawMessage`): absent/empty, a JSON string, an array of
`{type, text}` content blocks, or anything else (for which both
unmarshal attempts of `GetContentText` fail). -/
inductive ToolResultContent where
  | absent
  | str (s : Str)
  | blocks (bs : List (Str × Str))
  | other
deriving DecidableEq, Repr

/-- Go `StreamContentBlock.GetContentText`: the string content itself, or
the non-empty `text` fields of `type == "text"` array elements joined
by newlines; `""` in every other case. -/
def getContentText : ToolResultContent → Str
  | .absent => []
  | .str s => s
  | .blocks bs =>
    List.intercalate ['\n']
      (bs.filterMap fun b =>
        if b.1 = "text".toList ∧ b.2 ≠ [] then some b.2 else none)
  | .other => []

/-- A content block of a decoded stream message (the fields the `user`
case consults). -/
structure StreamContentBlock where
  type : Str
  toolUseID : Str := []
  content : ToolResultContent := .absent
  isError : Bool := false
deriving DecidableEq, Repr

/-- The per-task record of a previously seen `tool_use` block:
`toolUseID → (name, input)`. -/
structure ToolInfo where
  name : Str
  input : ToolInput
deriving DecidableEq, Repr

/-- Go map lookup with zero value: a missing `toolUseID` yields
`toolInfo{}` (empty name, nil input). -/
def lookupToolInfo (infos : List (Str × ToolInfo)) (id : Str) : ToolInfo :=
  (List.lookup id infos).getD { name := [], input := {} }

/-- Go `json.Marshal(info.Input)` on the modelled tool-input record: keys
in Go's sorted map order (`command`, `file_path`, `query`, `url`);
`null` when no key is present (the nil map of the zero-value
`toolInfo`).  String escaping is elided (the NUL-freedom used by the
theorems below is taken as a hypothesis). -/
def encodeToolInputJson (i : ToolInput) : Str :=
  let fs : List (Str × Str) :=
    (match i.command with | some v => [("command".toList, v)] | none => [])
    ++ (match i.file_path with | some v => [("file_path".toList, v)] | none => [])
    ++ (match i.query with | some v => [("query".toList, v)] | none => [])
    ++ (match i.url with | some v => [("url".toList, v)] | none => [])
  match fs with
  | [] => "null".toList
  | _ =>
    '{' :: List.intercalate [','] (fs.map fun p => '"' :: p.1 ++ '"' :: ':' :: '"' :: p.2 ++ ['"']) ++ ['}']

/-- Go `strings.TrimRight(s, " \t\n\r")`. -/
def trimRightWS (s : Str) : Str :=
  (s.reverse.dropWhile fun c => c = ' ' || c = '\t' || c = '\n' || c = '\x0d').reverse

/-- The string `"__STATS__"`. -/
def statsPrefix : Str := "__STATS__".toList
/-- The string `"__SNIPPET__"`. -/
def snippetPrefix : Str := "__SNIPPET__".toList

/-- The loop body of the `case "user"` branch of the PTY reader
(`Runner.Start`) for one content block: for a `tool_result` block,
extract the textual body; skip the block when the body is empty;
otherwise offer to the output channel an inline code block
(`"\n```\n" + trimmed + "\n```"`) when the recorded tool is Bash and
the body is at most 500 bytes, and a
`__SNIPPET__name\x00inputJSON\x00trimmed` message otherwise. -/
def emitUserBlock (infos : List (Str × ToolInfo))
    (block : StreamContentBlock) : Option Str :=
  if block.type = "tool_result".toList then
    let contentText := getContentText block.content
    if contentText = [] then none
    else
      let info := lookupToolInfo infos block.toolUseID
      let trimmed := trimRightWS contentText
      if info.name = bashS ∧ contentText.length ≤ 500 then
        some ('\n' :: "```\n".toList ++ trimmed ++ "\n```".toList)
      else
        some (snippetPrefix ++ info.name
          ++ '\x00' :: encodeToolInputJson info.input ++ '\x00' :: trimmed)
  else none

/-- The `case "user"` branch of the PTY reader over all content blocks
of the message.  The list returned is the sequence of messages offered
to the output channel (a full channel drops messages — backpressure is
outside this model). -/
def processUserMessage (infos : List (Str × ToolInfo))
    (blocks : List StreamContentBlock) : List Str :=
  blocks.filterMap (emitUserBlock infos)

/-- The spec's `OutputItem`: the dispatcher's decoding of an output
channel message. -/
inductive OutputItem where
  | textChunk (s : Str)
  | stats (payload : Str)
  | toolResult (toolName inputJSON body : Str)
deriving DecidableEq, Repr

/-- Split at the first NUL. -/
def splitOnceNul : Str → Option (Str × Str)
  | [] => none
  | c :: rest =>
    if c = '\x00' then some ([], rest)
    else (splitOnceNul rest).map fun p => (c :: p.1, p.2)

/-- Go `strings.SplitN(payload, "\x00", 3)` under the handler's
`len(parts) == 3` guard: the first two NUL-separated parts and the
remainder. -/
def splitN3Nul (s : Str) : Option (Str × Str × Str) :=
  (splitOnceNul s).bind fun p =>
    (splitOnceNul p.2).map fun q => (p.1, q.1, q.2)

/-- The dispatcher's decoding of an output channel message
(`Handler.runClod` output case): `__STATS__` payloads, `__SNIPPET__`
triples (ignored — `none` — when malformed), and plain text chunks. -/
def decodeOutput (s : Str) : Option OutputItem :=
  if statsPrefix.isPrefixOf s then some (.stats (s.drop 9))
  else if snippetPrefix.isPrefixOf s then
    match splitN3Nul (s.drop 11) with
    | some t => some (.toolResult t.1 t.2.1 t.2.2)
    | none => none
  else some (.textChunk s)

/-- The output items the C5 claim predicts for a `user` message: exactly
one `ToolResult` per `tool_result` block, carrying the recorded tool
name and input and the block's extracted textual body. -/
def claimC5Items (infos : List (Str × ToolInfo))
    (blocks : List StreamContentBlock) : List OutputItem :=
  blocks.filterMap fun block =>
    if block.type = "tool_result".toList then
      let info := lookupToolInfo infos block.toolUseID
      some (.toolResult info.name (encodeToolInputJson info.input)
        (getContentText block.content))
    else none


/-- The tool-use table for the C5 counterexample and witness. -/
def infosC5 : List (Str × ToolInfo) :=
  [("toolu_1".toList, { name := "Grep".toList, input := { command := none } })]

/-- A `user` message with one `tool_result` block whose extracted body
is empty: the code emits nothing for it. -/
def blocksC5 : List StreamContentBlock :=
  [{ type := "tool_result".toList, toolUseID := "toolu_1".toList,
     content := .str [] }]

/-- C5 counterexample: a `user` message with a single `tool_result`
block whose extracted textual body is empty produces no output item at
all, while the claim demands exactly one `ToolResult` for it. -/
theorem toolresult_emission_counterexample :
    ¬ ((processUserMessage infosC5 blocksC5).filterMap decodeOutput
        = claimC5Items infosC5 blocksC5) := by decide

/-- The corrected per-block prediction: nothing for an empty extracted
body; an inline code-block text chunk for short Bash results; otherwise
a `ToolResult` carrying the recorded tool name, JSON-encoded input and
the right-trimmed body. -/
def amendedUserBlockItem (infos : List (Str × ToolInfo))
    (block : StreamContentBlock) : Option OutputItem :=
  if block.type = "tool_result".toList then
    let body := getContentText block.content
    if body = [] then none
    else
      let info := lookupToolInfo infos block.toolUseID
      if info.name = bashS ∧ body.length ≤ 500 then
        some (.textChunk ('\n' :: "```\n".toList ++ trimRightWS body ++ "\n```".toList))
      else
        some (.toolResult info.name (encodeToolInputJson info.input) (trimRightWS body))
  else none

/-- The corrected output items for a full `user` message. -/
def amendedC5Items (infos : List (Str × ToolInfo))
    (blocks : List StreamContentBlock) : List OutputItem :=
  blocks.filterMap (amendedUserBlockItem infos)

/-- Splitting at the first NUL after a NUL-free chunk. -/
theorem splitOnceNul_append {a : Str} (r : Str) (ha : '\x00' ∉ a) :
    splitOnceNul (a ++ '\x00' :: r) = some (a, r) := by
  induction a with
  | nil => rfl
  | cons c rest ih =>
    rw [List.cons_append, splitOnceNul]
    have hc : ¬(c = '\x00') := fun h => ha (h ▸ List.mem_cons_self c rest)
    rw [if_neg hc, ih fun h => ha (List.mem_cons_of_mem c h)]
    rfl

/-- Splitting with `SplitN(s, "\x00", 3)` recovers the three components when the first
two are NUL-free. -/
theorem splitN3Nul_parts {a b : Str} (c : Str) (ha : '\x00' ∉ a) (hb : '\x00' ∉ b) :
    splitN3Nul (a ++ '\x00' :: (b ++ '\x00' :: c)) = some (a, b, c) := by
  rw [splitN3Nul, splitOnceNul_append _ ha, Option.some_bind, splitOnceNul_append _ hb]
  rfl

/-- A message starting with a newline is decoded as a plain text chunk. -/
theorem decodeOutput_newline (xs : Str) :
    decodeOutput ('\n' :: xs) = some (.textChunk ('\n' :: xs)) := rfl

/-- A well-formed snippet message decodes to the `ToolResult` carrying
its three components. -/
theorem decodeOutput_snippet {name inputJSON : Str} (body : Str)
    (hn : '\x00' ∉ name) (hi : '\x00' ∉ inputJSON) :
    decodeOutput (snippetPrefix ++ name ++ '\x00' :: inputJSON ++ '\x00' :: body)
      = some (.toolResult name inputJSON body) := by
  have hshape : snippetPrefix ++ name ++ '\x00' :: inputJSON ++ '\x00' :: body
      = snippetPrefix ++ (name ++ '\x00' :: (inputJSON ++ '\x00' :: body)) := by
    simp [List.append_assoc]
  rw [decodeOutput, hshape]
  have hstats : statsPrefix.isPrefixOf
      (snippetPrefix ++ (name ++ '\x00' :: (inputJSON ++ '\x00' :: body))) = false := rfl
  have hsnip : snippetPrefix.isPrefixOf
      (snippetPrefix ++ (name ++ '\x00' :: (inputJSON ++ '\x00' :: body))) = true := by
    rw [List.isPrefixOf_iff_prefix]
    exact List.prefix_append _ _
  rw [hstats, hsnip]
  simp only [Bool.false_eq_true, if_false, if_true]
  rw [List.drop_left' (by rfl), splitN3Nul_parts body hn hi]

/-- A successful association-list lookup returns a stored value. -/
theorem lookup_mem {infos : List (Str × ToolInfo)} {id : Str} {v : ToolInfo}
    (h : List.lookup id infos = some v) : ∃ k, (k, v) ∈ infos := by
  induction infos with
  | nil => simp [List.lookup] at h
  | cons p rest ih =>
    rw [List.lookup] at h
    split at h
    · obtain rfl := Option.some.injEq _ _ ▸ h
      exact ⟨p.1, by simp⟩
    · obtain ⟨k, hk⟩ := ih h
      exact ⟨k, List.mem_cons_of_mem p hk⟩

/-- The recorded-tool table entry consulted for a block is NUL-free when
every stored entry is (the zero-value entry for an unknown ID is
NUL-free outright). -/
theorem lookupToolInfo_nul_free (infos : List (Str × ToolInfo)) (id : Str)
    (hinfo : ∀ p ∈ infos, '\x00' ∉ p.2.name ∧ '\x00' ∉ encodeToolInputJson p.2.input) :
    '\x00' ∉ (lookupToolInfo infos id).name
      ∧ '\x00' ∉ encodeToolInputJson (lookupToolInfo infos id).input := by
  rw [lookupToolInfo]
  cases h : List.lookup id infos with
  | none => exact ⟨by simp, by decide⟩
  | some v =>
    obtain ⟨k, hk⟩ := lookup_mem h
    exact hinfo (k, v) hk

/-- C5 amended: for every decoded `user` stream message whose recorded
tool names and encoded inputs are NUL-free (as every name and JSON
encoding the program produces is), each tool-result content block with a
non-empty extracted textual body results in exactly one output item —
an inline code-block text chunk holding the right-trimmed body when the
recorded tool is Bash and the body is at most 500 bytes, and otherwise a
`ToolResult` carrying the recorded tool name and input and the
right-trimmed body; blocks with an empty extracted body produce
nothing. -/
theorem toolresult_emission_amended (infos : List (Str × ToolInfo))
    (blocks : List StreamContentBlock)
    (hinfo : ∀ p ∈ infos, '\x00' ∉ p.2.name ∧ '\x00' ∉ encodeToolInputJson p.2.input) :
    (processUserMessage infos blocks).filterMap decodeOutput
      = amendedC5Items infos blocks := by
  rw [processUserMessage, amendedC5Items, List.filterMap_filterMap]
  apply List.filterMap_congr
  intro b _
  rw [emitUserBlock, amendedUserBlockItem]
  by_cases ht : b.type = "tool_result".toList
  · rw [if_pos ht, if_pos ht]
    by_cases hbody : getContentText b.content = []
    · rw [if_pos hbody, if_pos hbody]
      rfl
    · rw [if_neg hbody, if_neg hbody]
      obtain ⟨hn, hi⟩ := lookupToolInfo_nul_free infos b.toolUseID hinfo
      by_cases hbash : (lookupToolInfo infos b.toolUseID).name = bashS
          ∧ (getContentText b.content).length ≤ 500
      · rw [if_pos hbash, if_pos hbash, Option.some_bind]
        simp only [List.cons_append]
        rw [decodeOutput_newline]
      · rw [if_neg hbash, if_neg hbash, Option.some_bind,
          decodeOutput_snippet (trimRightWS (getContentText b.content)) hn hi]
  · rw [if_neg ht, if_neg ht]
    rfl

/-- Witness for C5 amended at a concrete `user` message: one Grep
result, one short Bash result, and one empty-bodied block. -/
theorem toolresult_emission_amended_witness :
    (∀ p ∈ ([("toolu_g".toList,
          { name := "Grep".toList, input := { command := none } }),
        ("toolu_b".toList,
          { name := "Bash".toList,
            input := { command := some "ls".toList } })] :
        List (Str × ToolInfo)),
      '\x00' ∉ p.2.name ∧ '\x00' ∉ encodeToolInputJson p.2.input)
    ∧ (processUserMessage
        [("toolu_g".toList, { name := "Grep".toList, input := { command := none } }),
         ("toolu_b".toList, { name := "Bash".toList, input := { command := some "ls".toList } })]
        [{ type := "tool_result".toList, toolUseID := "toolu_g".toList,
           content := .str "match\n".toList },
         { type := "tool_result".toList, toolUseID := "toolu_b".toList,
           content := .str "out".toList },
         { type := "tool_result".toList, toolUseID := "toolu_g".toList,
           content := .str [] }]).filterMap decodeOutput
      = amendedC5Items
        [("toolu_g".toList, { name := "Grep".toList, input := { command := none } }),
         ("toolu_b".toList, { name := "Bash".toList, input := { command := some "ls".toList } })]
        [{ type := "tool_result".toList, toolUseID := "toolu_g".toList,
           content := .str "match\n".toList },
         { type := "tool_result".toList, toolUseID := "toolu_b".toList,
           content := .str "out".toList },
         { type := "tool_result".toList, toolUseID := "toolu_g".toList,
           content := .str [] }] :=
  ⟨by decide, toolresult_emission_amended _ _ (by decide)⟩

/-! ## Similar-pattern generation (C6) -/

/-- Go `strings.Index(s, sub)`: index of the first occurrence of `sub` in
`s`, `none` when absent (Go returns -1). -/
def indexOfSub (s sub : Str) : Option Nat :=
  if sub.isPrefixOf s then some 0
  else
    match s with
    | [] => none
    | _ :: rest => (indexOfSub rest sub).map (· + 1)

/-- The backtracking loop of Go's `path.Clean` for a `..` element:
having just dropped the character `c` from the output (held reversed in
`rout`), keep dropping while the output is longer than the `dotdot`
barrier and the dropped character is not a separator. -/
def cleanBacktrackAux : List Char → Nat → Char → List Char
  | rout, dd, c =>
    if rout.length > dd ∧ c ≠ '/' then
      match rout with
      | [] => []
      | c' :: rest => cleanBacktrackAux rest dd c'
    else rout

/-- Go step `out.w--` followed by the backtracking loop: remove the last output
element (everything after and including the last separator above the
`dotdot` barrier). -/
def cleanBacktrack (rout : List Char) (dd : Nat) : List Char :=
  match rout with
  | [] => []
  | c :: rest => cleanBacktrackAux rest dd c

/-- The scanning loop of Go's `path.Clean` (Unix separators), with the
output held reversed in `rout` and a fuel argument bounding the
remaining input length (`inp.length + 1` always suffices; fuel never
runs out on the initial call). -/
def cleanLoop : Nat → List Char → List Char → Nat → Bool → List Char
  | 0, _, rout, _, _ => rout
  | _ + 1, [], rout, _, _ => rout
  | fuel + 1, c :: r, rout, dd, rooted =>
    if c = '/' then cleanLoop fuel r rout dd rooted
    else if c = '.' ∧ (r = [] ∨ r.head? = some '/') then
      cleanLoop fuel r rout dd rooted
    else if c = '.' ∧ r.head? = some '.'
        ∧ (r.tail = [] ∨ r.tail.head? = some '/') then
      let r2 := r.tail
      if rout.length > dd then
        cleanLoop fuel r2 (cleanBacktrack rout dd) dd rooted
      else if !rooted then
        let rout2 := if rout.length > 0 then '.' :: '.' :: '/' :: rout else ['.', '.']
        cleanLoop fuel r2 rout2 rout2.length rooted
      else cleanLoop fuel r2 rout dd rooted
    else
      let rout1 :=
        if (rooted ∧ rout.length ≠ 1) ∨ (¬rooted ∧ rout.length ≠ 0) then '/' :: rout
        else rout
      let comp := (c :: r).takeWhile (fun x => !(x = '/'))
      let rest := (c :: r).dropWhile (fun x => !(x = '/'))
      cleanLoop fuel rest (comp.reverse ++ rout1) dd rooted

/-- Go `path/filepath.Clean` on Unix. -/
def goClean (path : Str) : Str :=
  if path = [] then ['.']
  else
    let rooted := path.head? = some '/'
    let rout := cleanLoop (path.length + 1)
      (if rooted then path.tail else path)
      (if rooted then ['/'] else [])
      (if rooted then 1 else 0)
      rooted
    if rout.length = 0 then ['.'] else rout.reverse

/-- Go `path/filepath.Dir` on Unix: everything up to and including the
last separator (empty when there is none), then `Clean`. -/
def goDir (path : Str) : Str :=
  goClean ((path.reverse.dropWhile fun c => !(c = '/')).reverse)

/-- Go `path/filepath.Base` on Unix. -/
def goBase (path : Str) : Str :=
  if path = [] then ['.']
  else
    let p1 := (path.reverse.dropWhile fun c => c = '/').reverse
    let p2 := (p1.reverse.takeWhile fun c => !(c = '/')).reverse
    if p2 = [] then ['/'] else p2

/-- Go `generateSimilarPattern` (handler source): the "Allow Similar"
permission rule for a request.  Direct translation: Bash commands give
`Bash(<first field>:*)`; Write/Edit/Read paths give
`<T>(<Base(Dir(path))>/**)` when that basename is non-empty and neither
`.` nor `/`; WebFetch URLs give `WebFetch(<url up to the first slash
after "://">:*)` when both `://` and such a slash exist; everything
else (including WebSearch) gives the empty string. -/
def generateSimilarPattern (toolName : Str) (toolInput : ToolInput) : Str :=
  if toolName = bashS then
    match toolInput.command with
    | some cmd =>
      match firstField cmd with
      | some cmdName => bashS ++ '(' :: cmdName ++ ":*)".toList
      | none => []
    | none => []
  else if toolName = writeS ∨ toolName = editS ∨ toolName = readS then
    match toolInput.file_path with
    | some path =>
      let base := goBase (goDir path)
      if base ≠ [] ∧ base ≠ ['.'] ∧ base ≠ ['/'] then
        toolName ++ '(' :: base ++ "/**)".toList
      else []
    | none => []
  else if toolName = webFetchS then
    match toolInput.url with
    | some urlStr =>
      match indexOfSub urlStr "://".toList with
      | some idx =>
        match indexOfSub (urlStr.drop (idx + 3)) ['/'] with
        | some slashIdx =>
          webFetchS ++ '(' :: urlStr.take (idx + 3 + slashIdx) ++ ":*)".toList
        | none => []
      | none => []
    | none => []
  else []

/-- The generation table exactly as the claim states it: identical to
the code for Bash and Write/Edit/Read, but for WebFetch it yields
`WebFetch(<scheme>://<host>:*)` for every URL containing `://`, the
host extending to the first later slash or to the end of the URL. -/
def claimSimilarPattern (toolName : Str) (toolInput : ToolInput) : Str :=
  if toolName = bashS then
    match toolInput.command with
    | some cmd =>
      match firstField cmd with
      | some cmdName => bashS ++ '(' :: cmdName ++ ":*)".toList
      | none => []
    | none => []
  else if toolName = writeS ∨ toolName = editS ∨ toolName = readS then
    match toolInput.file_path with
    | some path =>
      let base := goBase (goDir path)
      if base ≠ [] ∧ base ≠ ['.'] ∧ base ≠ ['/'] then
        toolName ++ '(' :: base ++ "/**)".toList
      else []
    | none => []
  else if toolName = webFetchS then
    match toolInput.url with
    | some urlStr =>
      match indexOfSub urlStr "://".toList with
      | some idx =>
        webFetchS ++ '(' :: (urlStr.take (idx + 3)
          ++ (urlStr.drop (idx + 3)).takeWhile (fun x => !(x = '/'))) ++ ":*)".toList
      | none => []
    | none => []
  else []

/-- C6 counterexample: for a WebFetch URL with no path slash the code
returns the empty string, not `WebFetch(<scheme>://<host>:*)`. -/
theorem similar_pattern_counterexample :
    generateSimilarPattern webFetchS { url := some "https://example.com".toList } = []
    ∧ claimSimilarPattern webFetchS { url := some "https://example.com".toList }
        = "WebFetch(https://example.com:*)".toList
    ∧ generateSimilarPattern webFetchS { url := some "https://example.com".toList }
        ≠ claimSimilarPattern webFetchS { url := some "https://example.com".toList } := by
  decide

/-- The generation table as amended: the WebFetch clause yields the
pattern only when the URL contains `://` followed by a later slash, the
host being the segment between `://` and that first slash. -/
def amendedSimilarSpec (toolName : Str) (toolInput : ToolInput) : Str :=
  if toolName = bashS then
    match toolInput.command with
    | some cmd =>
      match firstField cmd with
      | some cmdName => bashS ++ '(' :: cmdName ++ ":*)".toList
      | none => []
    | none => []
  else if toolName = writeS ∨ toolName = editS ∨ toolName = readS then
    match toolInput.file_path with
    | some path =>
      let base := goBase (goDir path)
      if base ≠ [] ∧ base ≠ ['.'] ∧ base ≠ ['/'] then
        toolName ++ '(' :: base ++ "/**)".toList
      else []
    | none => []
  else if toolName = webFetchS then
    match toolInput.url with
    | some urlStr =>
      match indexOfSub urlStr "://".toList with
      | some idx =>
        if '/' ∈ urlStr.drop (idx + 3) then
          webFetchS ++ '(' :: (urlStr.take (idx + 3)
            ++ (urlStr.drop (idx + 3)).takeWhile (fun x => !(x = '/'))) ++ ":*)".toList
        else []
      | none => []
    | none => []
  else []

/-- The function `indexOfSub` for a single character fails exactly on strings not
containing it. -/
theorem indexOfSub_char_none {s : Str} {c : Char} :
    indexOfSub s [c] = none ↔ c ∉ s := by
  induction s with
  | nil => simp [indexOfSub]
  | cons d rest ih =>
    rw [indexOfSub]
    by_cases hcd : c = d
    · subst hcd
      rw [if_pos (by simp)]
      simp
    · rw [if_neg (by simp [List.isPrefixOf_cons₂, hcd])]
      simp [Option.map_eq_none, ih, hcd]

/-- Up to the first occurrence of a character, `take` agrees with
`takeWhile`. -/
theorem take_indexOfSub_char {s : Str} {c : Char} {i : Nat}
    (h : indexOfSub s [c] = some i) :
    s.take i = s.takeWhile (fun x => !(x = c)) := by
  induction s generalizing i with
  | nil => simp [indexOfSub] at h
  | cons d rest ih =>
    rw [indexOfSub] at h
    by_cases hcd : c = d
    · subst hcd
      rw [if_pos (by simp)] at h
      obtain rfl := (Option.some.injEq _ _).mp h
      simp
    · rw [if_neg (by simp [List.isPrefixOf_cons₂, hcd])] at h
      cases hrest : indexOfSub rest [c] with
      | none => rw [hrest] at h; simp at h
      | some j =>
        rw [hrest] at h
        obtain rfl : j + 1 = i := by simpa using h
        rw [List.take_succ_cons, List.takeWhile_cons_of_pos (by simp [Ne.symm hcd]), ih hrest]

/-- C6 amended: `generateSimilarPattern` computes exactly the amended
generation table, for every tool name and input. -/
theorem similar_pattern_amended (toolName : Str) (toolInput : ToolInput) :
    generateSimilarPattern toolName toolInput = amendedSimilarSpec toolName toolInput := by
  rw [generateSimilarPattern, amendedSimilarSpec]
  by_cases hb : toolName = bashS
  · simp only [if_pos hb]
  · simp only [if_neg hb]
    by_cases hw : toolName = writeS ∨ toolName = editS ∨ toolName = readS
    · simp only [if_pos hw]
    · simp only [if_neg hw]
      by_cases hf : toolName = webFetchS
      · simp only [if_pos hf]
        cases toolInput.url with
        | none => rfl
        | some u =>
          cases hidx : indexOfSub u "://".toList with
          | none => simp only [hidx]
          | some idx =>
            simp only [hidx]
            cases hslash : indexOfSub (u.drop (idx + 3)) ['/'] with
            | none =>
              have hnm : '/' ∉ u.drop (idx + 3) := indexOfSub_char_none.mp hslash
              simp only [hslash, if_neg hnm]
            | some slashIdx =>
              have hmem : '/' ∈ u.drop (idx + 3) := by
                by_contra hc
                rw [indexOfSub_char_none.mpr hc] at hslash
                exact Option.noConfusion hslash
              simp only [hslash, if_pos hmem, List.take_add,
                take_indexOfSub_char hslash]
      · simp only [if_neg hf]

/-! ## Markdown → mrkdwn transformation (C7) -/

/-- An inline node of the parsed Markdown fragment: plain text, strong
(`**x**`), or emphasis (`*x*` / `_x_`). -/
inductive Inline where
  | text (s : Str)
  | strong (inner : Str)
  | emph (inner : Str)
deriving DecidableEq, Repr

/-- Split at the first occurrence of the character `c`. -/
def splitAtChar (c : Char) : Str → Option (Str × Str)
  | [] => none
  | d :: rest =>
    if d = c then some ([], rest)
    else (splitAtChar c rest).map fun p => (d :: p.1, p.2)

/-- Split at the first occurrence of `**`. -/
def splitAtTwoStar : Str → Option (Str × Str)
  | [] => none
  | '*' :: '*' :: rest => some ([], rest)
  | d :: rest => (splitAtTwoStar rest).map fun p => (d :: p.1, p.2)

/-- Modelled from the spec: the inline-level Markdown parse performed
inside `ConvertMarkdownToMrkdwn` by the external gomarkdown CommonMark
parser (absent from the sources), restricted to a single paragraph with
non-nested strong (`**x**`) and emphasis (`*x*`, `_x_`) runs.  The
behaviour on these shapes is pinned by the repository's own tests
(`TestConvertMarkdownToMrkdwn`: `**bold**` → `*bold*`, `*italic*` →
`_italic_`, plain text unchanged).  The other constructs the program
transforms — links, strikethrough, inline code, headings, lists,
blockquotes, autolinks — are OUTSIDE this model: the model would read
their marker characters as plain text, so no theorem below may be
stated on an input containing such a marker.  The positive theorems
below therefore restrict their inputs to `plainMdChar` characters,
which can begin none of those constructs; the C7 counterexample uses
only the strong/emphasis shapes the tests pin.  `fuel` bounds the recursion
(`input length + 1` always suffices). -/
def parseInlines : Nat → Str → List Inline
  | 0, _ => []
  | _ + 1, [] => []
  | fuel + 1, c :: rest =>
    if c = '*' then
      if rest.head? = some '*' then
        match splitAtTwoStar rest.tail with
        | some p => .strong p.1 :: parseInlines fuel p.2
        | none => .text ['*'] :: parseInlines fuel rest
      else
        match splitAtChar '*' rest with
        | some p => .emph p.1 :: parseInlines fuel p.2
        | none => .text ['*'] :: parseInlines fuel rest
    else if c = '_' then
      match splitAtChar '_' rest with
      | some p => .emph p.1 :: parseInlines fuel p.2
      | none => .text ['_'] :: parseInlines fuel rest
    else .text [c] :: parseInlines fuel rest

/-- The `mrkdwnRenderer` on an inline node: strong renders between
single asterisks, emphasis between underscores, text verbatim
(`RenderNode`, cases `ast.Strong`, `ast.Emph`, `ast.Text`). -/
def renderInline : Inline → Str
  | .text s => s
  | .strong inner => '*' :: inner ++ ['*']
  | .emph inner => '_' :: inner ++ ['_']

/-- Render a parsed paragraph. -/
def renderInlines (l : List Inline) : Str :=
  (l.map renderInline).flatten

/-- Go `strings.TrimSpace` (ASCII fragment). -/
def trimSpace (s : Str) : Str :=
  ((s.dropWhile isSpaceChar).reverse.dropWhile isSpaceChar).reverse

/-- Go `ConvertMarkdownToMrkdwn` on a single-paragraph input: parse,
render, and trim surrounding whitespace (the paragraph's trailing
newline is absorbed by the final `strings.TrimSpace`). -/
def convertMarkdownToMrkdwn (s : Str) : Str :=
  trimSpace (renderInlines (parseInlines (s.length + 1) s))

/-- Characters that can trigger no Markdown construct at all: ASCII
letters, the space, and the punctuation `,` `!` `?`.  Every construct
the program's gomarkdown parser (CommonExtensions + Strikethrough)
recognizes needs a character outside this set: emphasis and strong
need `*` or `_`, strikethrough `~`, links and images `[` (a `!` not
followed by `[` stays literal), inline code and fences a backtick,
headings `#`, blockquotes `>`, lists `-` `+` `*` or digits, tables
`|`, raw HTML and autolinks `<` `:` `/`, bare-domain autolinks a `.`
(hence `.` is excluded: `www` followed by a dot autolinks), entities
`&`, escapes a backslash, and breaks a newline or tab.  A string of
such characters whose first character is not a space (four leading
spaces would open an indented code block) is one paragraph of literal
text, on which the program's whole transformation is exactly
`strings.TrimSpace` — the fragment on which the positive C7 theorems
are faithful to the program. -/
def plainMdChar (c : Char) : Bool :=
  (65 ≤ c.toNat && c.toNat ≤ 90) || (97 ≤ c.toNat && c.toNat ≤ 122)
    || c = ' ' || c = ',' || c = '!' || c = '?'

/-- C7 counterexample: `ConvertMarkdownToMrkdwn` is not idempotent —
`**bold**` renders to `*bold*`, which a second application re-parses as
emphasis and rewrites to `_bold_`. -/
theorem markdown_idempotence_counterexample :
    convertMarkdownToMrkdwn (convertMarkdownToMrkdwn "This is **bold** text".toList)
      ≠ convertMarkdownToMrkdwn "This is **bold** text".toList := by decide

/-- The head of a `dropWhile` result falsifies the predicate. -/
theorem dropWhile_head_false {p : Char → Bool} {l : List Char} {c : Char}
    (h : (l.dropWhile p).head? = some c) : p c = false := by
  have hd := List.head?_dropWhile_not p l
  rw [h] at hd
  exact hd

/-- The function `dropWhile` is the identity on a list whose head falsifies the
predicate. -/
theorem dropWhile_eq_self_of_head {p : Char → Bool} {l : List Char}
    (h : ∀ c, l.head? = some c → p c = false) : l.dropWhile p = l := by
  cases l with
  | nil => rfl
  | cons c rest =>
    exact List.dropWhile_cons_of_neg (by simp [h c rfl])

/-- Go `strings.TrimSpace` is idempotent. -/
theorem trimSpace_idem (s : Str) : trimSpace (trimSpace s) = trimSpace s := by
  rw [trimSpace, trimSpace]
  have h1 : (((s.dropWhile isSpaceChar).reverse.dropWhile isSpaceChar).reverse).dropWhile
      isSpaceChar = ((s.dropWhile isSpaceChar).reverse.dropWhile isSpaceChar).reverse := by
    apply dropWhile_eq_self_of_head
    intro c hc
    rw [List.head?_reverse] at hc
    -- c is the last element of dropWhile isSpaceChar (reverse (dropWhile isSpaceChar s)),
    -- i.e. the last element of reverse (dropWhile isSpaceChar s), i.e. the head of
    -- dropWhile isSpaceChar s, which falsifies isSpaceChar.
    have hsplit := List.takeWhile_append_dropWhile isSpaceChar
      (s.dropWhile isSpaceChar).reverse
    have hlast : ((s.dropWhile isSpaceChar).reverse).getLast? = some c := by
      rw [← hsplit, List.getLast?_append, hc]
      rfl
    rw [List.getLast?_eq_head?_reverse, List.reverse_reverse] at hlast
    exact dropWhile_head_false hlast
  rw [h1, List.reverse_reverse]
  have h2 : ((s.dropWhile isSpaceChar).reverse.dropWhile isSpaceChar).dropWhile
      isSpaceChar = (s.dropWhile isSpaceChar).reverse.dropWhile isSpaceChar := by
    apply dropWhile_eq_self_of_head
    intro c hc
    exact dropWhile_head_false hc
  rw [h2]

/-- On delimiter-free input the parser produces only text nodes. -/
theorem parseInlines_plain (fuel : Nat) (s : Str) (hf : s.length < fuel)
    (h : ∀ c ∈ s, ¬(c = '*') ∧ ¬(c = '_')) :
    parseInlines fuel s = s.map fun c => Inline.text [c] := by
  induction fuel generalizing s with
  | zero => omega
  | succ fuel ih =>
    cases s with
    | nil => rfl
    | cons c rest =>
      obtain ⟨hstar, hund⟩ := h c (List.mem_cons_self c rest)
      rw [parseInlines, if_neg hstar, if_neg hund, List.map_cons,
        ih rest (by simpa using Nat.lt_of_succ_lt_succ (by simpa using hf))
          fun d hd => h d (List.mem_cons_of_mem c hd)]

/-- Joining singleton chunks reassembles the string. -/
theorem join_map_singleton (s : Str) : (s.map fun c => [c]).flatten = s := by
  induction s with
  | nil => rfl
  | cons c rest ih => simp [ih]

/-- Construct-free characters are in particular not emphasis or strong
delimiters. -/
theorem plainMdChar_no_emph {c : Char} (h : plainMdChar c = true) :
    ¬(c = '*') ∧ ¬(c = '_') := by
  constructor <;> intro hc <;> subst hc <;> exact absurd h (by decide)

/-- A construct-free character other than the space is no whitespace at
all: tabs, newlines and the other `strings.TrimSpace` targets are
outside `plainMdChar`. -/
theorem plainMdChar_not_space {c : Char} (hp : plainMdChar c = true)
    (hs : ¬(c = ' ')) : isSpaceChar c = false := by
  rw [Bool.eq_false_iff]
  intro hsp
  rw [isSpaceChar] at hsp
  simp only [Bool.or_eq_true, decide_eq_true_eq] at hsp
  rcases hsp with ((((rfl | rfl) | rfl) | rfl) | rfl) | rfl
  · exact hs rfl
  · exact absurd hp (by decide)
  · exact absurd hp (by decide)
  · exact absurd hp (by decide)
  · exact absurd hp (by decide)
  · exact absurd hp (by decide)

/-- On construct-free input whose first character is not a space (four
or more leading spaces would open an indented code block, outside the
single-paragraph fragment the model covers — the head hypothesis keeps
the statement inside that fragment), the whole transformation is
exactly whitespace trimming: the input is one paragraph of literal
text. -/
theorem convert_plain (s : Str) (hplain : ∀ c ∈ s, plainMdChar c = true)
    (_hhead : ∀ c, s.head? = some c → ¬(c = ' ')) :
    convertMarkdownToMrkdwn s = trimSpace s := by
  have h : ∀ c ∈ s, ¬(c = '*') ∧ ¬(c = '_') :=
    fun c hc => plainMdChar_no_emph (hplain c hc)
  rw [convertMarkdownToMrkdwn, parseInlines_plain (s.length + 1) s (by omega) h,
    renderInlines, List.map_map]
  have : (renderInline ∘ fun c => Inline.text [c]) = fun c : Char => [c] := rfl
  rw [this, join_map_singleton]

/-- Trimming preserves membership. -/
theorem mem_trimSpace {s : Str} {c : Char} (h : c ∈ trimSpace s) : c ∈ s := by
  rw [trimSpace, List.mem_reverse] at h
  have h1 := (List.dropWhile_sublist isSpaceChar).subset h
  rw [List.mem_reverse] at h1
  exact (List.dropWhile_sublist isSpaceChar).subset h1

/-- Trimming a construct-free string that does not begin with a space
leaves its head (if any) unchanged, so it still does not begin with a
space. -/
theorem trimSpace_head_not_space {s : Str}
    (hplain : ∀ c ∈ s, plainMdChar c = true)
    (hhead : ∀ c, s.head? = some c → ¬(c = ' ')) :
    ∀ c, (trimSpace s).head? = some c → ¬(c = ' ') := by
  intro c hc
  have hself : s.dropWhile isSpaceChar = s := by
    apply dropWhile_eq_self_of_head
    intro d hd
    have hmem : d ∈ s := List.mem_of_mem_head? (by rw [hd]; rfl)
    exact plainMdChar_not_space (hplain d hmem) (hhead d hd)
  rw [trimSpace, hself] at hc
  have hsplit := List.takeWhile_append_dropWhile isSpaceChar s.reverse
  have hs : s = (s.reverse.dropWhile isSpaceChar).reverse
      ++ (s.reverse.takeWhile isSpaceChar).reverse := by
    have hr := congrArg List.reverse hsplit
    rw [List.reverse_append, List.reverse_reverse] at hr
    exact hr.symm
  have hcs : s.head? = some c := by
    rw [hs, List.head?_append, hc]
    rfl
  exact hhead c hcs

/-- C7 amended: the transformation is not idempotent in general (see
the counterexample: rendered bold re-parses as emphasis); applying it
twice yields the same result as applying it once on inputs built only
from construct-free characters (ASCII letters, spaces and `,` `!` `?`)
that do not begin with a space — on that fragment the transformation
is whitespace trimming, which is idempotent. -/
theorem markdown_idempotence_amended (s : Str)
    (hplain : ∀ c ∈ s, plainMdChar c = true)
    (hhead : ∀ c, s.head? = some c → ¬(c = ' ')) :
    convertMarkdownToMrkdwn (convertMarkdownToMrkdwn s) = convertMarkdownToMrkdwn s := by
  rw [convert_plain s hplain hhead,
    convert_plain (trimSpace s) (fun c hc => hplain c (mem_trimSpace hc))
      (trimSpace_head_not_space hplain hhead),
    trimSpace_idem]

/-- Witness for C7 amended at a concrete construct-free input. -/
theorem markdown_idempotence_amended_witness :
    (∀ c ∈ "Routine maintenance done  ".toList, plainMdChar c = true)
    ∧ (∀ c, ("Routine maintenance done  ".toList).head? = some c → ¬(c = ' '))
    ∧ convertMarkdownToMrkdwn
        (convertMarkdownToMrkdwn "Routine maintenance done  ".toList)
      = convertMarkdownToMrkdwn "Routine maintenance done  ".toList :=
  ⟨by decide, by decide, markdown_idempotence_amended _ (by decide) (by decide)⟩

/-! ## Follow-up input (C8) -/

/-- An attachment to send with follow-up input (`ImageData`): a MIME
type and raw bytes. -/
structure ImageData where
  mediaType : Str
  data : List Nat
deriving DecidableEq, Repr

/-- The base64 alphabet (`encoding/base64.StdEncoding`). -/
def b64char (n : Nat) : Char :=
  ("ABCDEFGHIJKLMNOPQRSTUVWXYZabcdefghijklmnopqrstuvwxyz0123456789+/".toList).getD n '='

/-- Go `base64.StdEncoding.EncodeToString`. -/
def base64Encode : List Nat → Str
  | [] => []
  | [a] => [b64char (a / 4), b64char (a % 4 * 16), '=', '=']
  | [a, b] => [b64char (a / 4), b64char (a % 4 * 16 + b / 16), b64char (b % 16 * 4), '=']
  | a :: b :: c :: rest =>
    b64char (a / 4) :: b64char (a % 4 * 16 + b / 16)
      :: b64char (b % 16 * 4 + c / 64) :: b64char (c % 64) :: base64Encode rest

/-- Escaping of one character in a JSON string (`encoding/json`; the
control characters the program never emits are elided). -/
def escapeJsonChar (c : Char) : Str :=
  if c = '"' then ['\\', '"']
  else if c = '\\' then ['\\', '\\']
  else if c = '\n' then ['\\', 'n']
  else if c = '\t' then ['\\', 't']
  else if c = '\x0d' then ['\\', 'r']
  else [c]

/-- Escaping of a JSON string body. -/
def escapeJson (s : Str) : Str :=
  (s.map escapeJsonChar).flatten

/-- A content block of a follow-up input message
(`InputContentBlock`): a text block or a base64 image block. -/
inductive InputContentBlock where
  | text (t : Str)
  | image (mediaType : Str) (base64Data : Str)
deriving DecidableEq, Repr

/-- JSON encoding of one input content block, with the struct tags and
field order of the source (`type`, then `text` or `source`), rendered
compactly as `json.Marshal` produces. -/
def renderInputBlock : InputContentBlock → Str
  | .text t =>
    "\x7b\"type\":\"text\",\"text\":\"".toList ++ escapeJson t ++ "\"\x7d".toList
  | .image mt d =>
    "\x7b\"type\":\"image\",\"source\":\x7b\"type\":\"base64\",\"media_type\":\"".toList
      ++ escapeJson mt ++ "\",\"data\":\"".toList ++ escapeJson d ++ "\"\x7d\x7d".toList

/-- Go `json.Marshal` of the `InputMessage` envelope
`\x7btype:"user", message:\x7brole:"user", content:[...]\x7d\x7d`; a nil
content slice marshals to `null`. -/
def renderInputMessage (content : List InputContentBlock) : Str :=
  "\x7b\"type\":\"user\",\"message\":\x7b\"role\":\"user\",\"content\":".toList
  ++ (match content with
      | [] => "null".toList
      | _ => '[' :: List.intercalate [','] (content.map renderInputBlock) ++ [']'])
  ++ "\x7d\x7d".toList

/-- Go `RunningTask.SendInputWithImages`, as a function of the PTY state,
the text, and the attachments: a closed PTY is an error; otherwise the
content blocks are built (images first, the text block only when the
text is non-empty — a nil block slice marshals to JSON `null`), the
message is serialized, and the bytes plus a newline are written to the
PTY.  The returned value is the written byte sequence. -/
def sendInputWithImages (ptyOpen : Bool) (text : Str) (images : List ImageData) :
    Except Str Str :=
  if !ptyOpen then .error "pty is closed".toList
  else
    let content : List InputContentBlock :=
      (images.map fun img => .image img.mediaType (base64Encode img.data))
      ++ (if text ≠ [] then [.text text] else [])
    .ok (renderInputMessage content ++ ['\n'])

/-- C8 counterexample: a call with empty text and no attachments is not
rejected — it succeeds and writes the serialized user message with a
`null` content array (plus newline) to the PTY. -/
theorem followup_empty_rejected_counterexample :
    sendInputWithImages true [] []
      = Except.ok
        ("\x7b\"type\":\"user\",\"message\":\x7b\"role\":\"user\",\"content\":null\x7d\x7d".toList
          ++ ['\n']) := by rfl

/-- C8 amended: empty text with no attachments is not rejected; the
only rejected call is one against a closed PTY.  On an open PTY the
message `\x7b"type":"user","message":\x7b"role":"user","content":null\x7d\x7d`
followed by a newline is written. -/
theorem followup_empty_amended (ptyOpen : Bool) :
    sendInputWithImages ptyOpen [] []
      = if ptyOpen then
          Except.ok
            ("\x7b\"type\":\"user\",\"message\":\x7b\"role\":\"user\",\"content\":null\x7d\x7d".toList
              ++ ['\n'])
        else Except.error "pty is closed".toList := by
  cases ptyOpen <;> rfl

/-! ## Task registry (C9) -/

/-- Identity `(Char.ofNat n).toNat = n` for code points below the surrogate
range. -/
theorem toNat_ofNat_valid {n : Nat} (h : n < 55296) : (Char.ofNat n).toNat = n := by
  rw [Char.ofNat, dif_pos (Or.inl h)]
  rfl

/-- Go `strings.ToLower`, ASCII fragment (task directory names are
ASCII). -/
def lowerChar (c : Char) : Char :=
  if 65 ≤ c.toNat ∧ c.toNat ≤ 90 then Char.ofNat (c.toNat + 32) else c

/-- Go `strings.ToLower` over a string. -/
def lowerStr (s : Str) : Str := s.map lowerChar

/-- Lowercasing is idempotent. -/
theorem lowerChar_idem (c : Char) : lowerChar (lowerChar c) = lowerChar c := by
  by_cases h : 65 ≤ c.toNat ∧ c.toNat ≤ 90
  · have hin : lowerChar c = Char.ofNat (c.toNat + 32) := by rw [lowerChar, if_pos h]
    rw [hin, lowerChar, toNat_ofNat_valid (by omega), if_neg (by omega)]
  · have hin : lowerChar c = c := by rw [lowerChar, if_neg h]
    simp only [hin]

/-- Lowercasing a string is idempotent. -/
theorem lowerStr_idem (s : Str) : lowerStr (lowerStr s) = lowerStr s := by
  simp only [lowerStr, List.map_map]
  exact List.map_congr_left fun c _ => lowerChar_idem c

/-- A directory entry of the agents base path, with the discovery
predicates of `TaskRegistry.Discover`: the entry is a directory, its
`.clod` child exists and is a directory, and `.clod/system/run`
exists. -/
structure DirEntry where
  name : Str
  isDir : Bool
  hasClodDir : Bool
  hasRunScript : Bool
deriving DecidableEq, Repr

/-- Go `TaskRegistry.Discover`: register
`lowercase(name) → filepath.Join(basePath, name)` for every directory
entry passing both discovery predicates (the join is plain
concatenation: the base path is already clean and entry names contain
no separators). -/
def discoverTasks (basePath : Str) (entries : List DirEntry) : List (Str × Str) :=
  entries.filterMap fun e =>
    if e.isDir && e.hasClodDir && e.hasRunScript then
      some (lowerStr e.name, basePath ++ '/' :: e.name)
    else none

/-- Go `TaskRegistry.Get`: look the name up lowercased;
`oops.New("unknown task: %q", name)` on a miss (the message quotes the
query verbatim). -/
def getTask (tasks : List (Str × Str)) (name : Str) : Except Str Str :=
  match List.lookup (lowerStr name) tasks with
  | some path => .ok path
  | none => .error ("unknown task: ".toList ++ name)

/-- Decidable equality of `Except` results. -/
instance {α β : Type} [DecidableEq α] [DecidableEq β] : DecidableEq (Except α β) := fun a b =>
  match a, b with
  | .error x, .error y =>
    if h : x = y then isTrue (by rw [h]) else isFalse (by simp [h])
  | .ok x, .ok y =>
    if h : x = y then isTrue (by rw [h]) else isFalse (by simp [h])
  | .error _, .ok _ => isFalse (by simp)
  | .ok _, .error _ => isFalse (by simp)

/-- The registry discovered from the single task directory `Demo`. -/
def demoRegistry : List (Str × Str) :=
  discoverTasks "/agents".toList
    [{ name := "Demo".toList, isDir := true, hasClodDir := true, hasRunScript := true }]

/-- C9 counterexample: on a miss, `Get` embeds the query verbatim in
its error, so `Get("DEMO")` and `Get(lowercase("DEMO"))` return
different results on the empty registry. -/
theorem task_lookup_counterexample :
    getTask ([] : List (Str × Str)) "DEMO".toList
      ≠ getTask ([] : List (Str × Str)) (lowerStr "DEMO".toList) := by decide

/-- C9 amended: the registry stores every discovered task under the
lowercased directory name (every stored key is a lowercasing fixpoint);
for every registry and name, `Get(name)` and `Get(lowercase(name))`
agree up to the miss error message (their `Option`-valued results are
equal: the same path on a hit, simultaneous failure on a miss); and a
task registered from directory `Demo` is found by `demo`, `DEMO` and
`Demo` alike. -/
theorem task_lookup_case_insensitive :
    (∀ (tasks : List (Str × Str)) (name : Str),
        (getTask tasks name).toOption = (getTask tasks (lowerStr name)).toOption)
    ∧ (∀ (basePath : Str) (entries : List DirEntry) (p : Str × Str),
        p ∈ discoverTasks basePath entries → p.1 = lowerStr p.1)
    ∧ (getTask demoRegistry "demo".toList = .ok "/agents/Demo".toList
        ∧ getTask demoRegistry "DEMO".toList = .ok "/agents/Demo".toList
        ∧ getTask demoRegistry "Demo".toList = .ok "/agents/Demo".toList) := by
  refine ⟨?_, ?_, rfl, rfl, rfl⟩
  · intro tasks name
    rw [getTask, getTask, lowerStr_idem]
    cases List.lookup (lowerStr name) tasks <;> rfl
  · intro basePath entries p hp
    rw [discoverTasks] at hp
    obtain ⟨e, -, heq⟩ := List.mem_filterMap.mp hp
    split at heq
    · obtain rfl := (Option.some.injEq _ _).mp heq
      exact (lowerStr_idem e.name).symm
    · exact absurd heq (by simp)

/-- Witness for C9 amended at concrete inputs: lookup of `DEMO` agrees
with lookup of its lowercasing up to the error message, and the
discovered `demo` key is a lowercasing fixpoint. -/
theorem task_lookup_case_insensitive_witness :
    ((getTask demoRegistry "DEMO".toList).toOption
        = (getTask demoRegistry (lowerStr "DEMO".toList)).toOption)
    ∧ ("demo".toList, "/agents/Demo".toList).1
        = lowerStr ("demo".toList, "/agents/Demo".toList).1 :=
  ⟨task_lookup_case_insensitive.1 demoRegistry "DEMO".toList,
   task_lookup_case_insensitive.2.1 "/agents".toList
     [{ name := "Demo".toList, isDir := true, hasClodDir := true, hasRunScript := true }]
     ("demo".toList, "/agents/Demo".toList) (by decide)⟩

/-! ## Attachment download (C10) -/

/-- The decimal digit character of `n < 10` (`fmt.Sprintf("%d", ·)`). -/
def digitChar (n : Nat) : Char := Char.ofNat (48 + n)

/-- Go `fmt.Sprintf("%d", n)` accumulated most-significant-first;
structural fuel (`n` itself suffices on the initial call). -/
def natDecF : Nat → Nat → List Char → List Char
  | 0, n, acc => digitChar (n % 10) :: acc
  | fuel + 1, n, acc =>
    if n < 10 then digitChar n :: acc
    else natDecF fuel (n / 10) (digitChar (n % 10) :: acc)

/-- Go `fmt.Sprintf("%d", n)`. -/
def natDec (n : Nat) : Str := natDecF n n []

/-- The accumulator of `natDecF` is appended to the digits. -/
theorem natDecF_append (fuel : Nat) : ∀ (n : Nat) (acc : List Char), n ≤ fuel →
    natDecF fuel n acc = natDecF fuel n [] ++ acc := by
  induction fuel with
  | zero =>
    intro n acc h
    rfl
  | succ fuel ih =>
    intro n acc h
    by_cases hn : n < 10
    · rw [natDecF, if_pos hn, natDecF, if_pos hn]
      rfl
    · have hle : n / 10 ≤ fuel := by omega
      rw [natDecF, if_neg hn, natDecF, if_neg hn,
        ih (n / 10) (digitChar (n % 10) :: acc) hle,
        ih (n / 10) [digitChar (n % 10)] hle, List.append_assoc]
      rfl

/-- The decimal valuation step. -/
def decValStep (a : Nat) (c : Char) : Nat := 10 * a + (c.toNat - 48)

/-- Digit characters valuate to their digit. -/
theorem decValStep_digitChar (a : Nat) {m : Nat} (h : m < 10) :
    decValStep a (digitChar m) = 10 * a + m := by
  rw [decValStep, digitChar, toNat_ofNat_valid (by omega)]
  omega

/-- Folding the valuation over the decimal digits of `n` starting from
`a` yields `a` shifted past the digits plus `n`. -/
theorem foldl_natDecF (fuel : Nat) : ∀ (n a : Nat), n ≤ fuel →
    List.foldl decValStep a (natDecF fuel n [])
      = a * 10 ^ (natDecF fuel n []).length + n := by
  induction fuel with
  | zero =>
    intro n a h
    obtain rfl : n = 0 := by omega
    rw [natDecF, List.foldl_cons, List.foldl_nil, decValStep_digitChar a (by omega)]
    simp [Nat.mul_comm]
  | succ fuel ih =>
    intro n a h
    by_cases hn : n < 10
    · rw [natDecF, if_pos hn, List.foldl_cons, List.foldl_nil, decValStep_digitChar a hn]
      simp [Nat.mul_comm]
    · have hle : n / 10 ≤ fuel := by omega
      rw [natDecF, if_neg hn, natDecF_append fuel (n / 10) _ hle, List.foldl_append,
        ih (n / 10) a hle, List.foldl_cons, List.foldl_nil,
        decValStep_digitChar _ (Nat.mod_lt n (by omega)), List.length_append,
        List.length_cons, List.length_nil]
      have hpow : 10 ^ ((natDecF fuel (n / 10) []).length + (0 + 1))
          = 10 ^ (natDecF fuel (n / 10) []).length * 10 := by
        rw [Nat.zero_add, Nat.pow_succ]
      rw [hpow]
      have hdm := Nat.div_add_mod n 10
      ring_nf
      omega

/-- The decimal rendering is injective. -/
theorem natDec_injective {a b : Nat} (h : natDec a = natDec b) : a = b := by
  have ha := foldl_natDecF a a 0 (Nat.le_refl a)
  have hb := foldl_natDecF b b 0 (Nat.le_refl b)
  simp only [Nat.zero_mul, Nat.zero_add] at ha hb
  rw [natDec, natDec] at h
  rw [h] at ha
  rw [ha] at hb
  exact hb

/-- The candidate filename with auto-incrementing suffix:
`fmt.Sprintf("%s-%d%s", base, i, ext)`. -/
def candName (base ext : Str) (i : Nat) : Str :=
  base ++ '-' :: natDec i ++ ext

/-- Candidate names with distinct indices are distinct. -/
theorem candName_inj {base ext : Str} {i j : Nat}
    (h : candName base ext i = candName base ext j) : i = j := by
  rw [candName, candName] at h
  have h1 := List.append_cancel_right h
  have h2 := List.append_cancel_left h1
  injection h2 with h0 h3
  exact natDec_injective h3

/-- Among the first `|names| + 1` candidate indices, some candidate is
not taken. -/
theorem exists_free_cand (names : List Str) (base ext : Str) :
    ∃ i, 1 ≤ i ∧ i ≤ names.length + 1 ∧ candName base ext i ∉ names := by
  by_contra hall
  push_neg at hall
  have hinj : Set.InjOn (candName base ext) (Finset.Icc 1 (names.length + 1)) :=
    fun a _ b _ hab => candName_inj hab
  have hsub : ∀ a ∈ Finset.Icc 1 (names.length + 1),
      candName base ext a ∈ names.toFinset := by
    intro a ha
    rw [List.mem_toFinset]
    obtain ⟨h1, h2⟩ := Finset.mem_Icc.mp ha
    exact hall a h1 h2
  have hcard := Finset.card_le_card_of_injOn (candName base ext) hsub hinj
  rw [Nat.card_Icc] at hcard
  have hfin := List.toFinset_card_le names
  omega

/-- The auto-increment loop of `DownloadToTask`: try
`base-1ext, base-2ext, …` until a name is free (`os.Stat` reports
non-existence).  `fuel` bounds the iterations; `|names| + 1` always
suffices. -/
def findFreeName (names : List Str) (base ext : Str) : Nat → Nat → Option Str
  | 0, _ => none
  | fuel + 1, i =>
    if candName base ext i ∈ names then findFreeName names base ext fuel (i + 1)
    else some (candName base ext i)

/-- A name returned by the loop is not taken. -/
theorem findFreeName_not_mem (names : List Str) (base ext : Str) :
    ∀ fuel i nm, findFreeName names base ext fuel i = some nm → nm ∉ names := by
  intro fuel
  induction fuel with
  | zero =>
    intro i nm h
    exact absurd h (by simp [findFreeName])
  | succ fuel ih =>
    intro i nm h
    rw [findFreeName] at h
    split at h
    · exact ih (i + 1) nm h
    · rename_i hfree
      obtain rfl := (Option.some.injEq _ _).mp h
      exact hfree

/-- The loop succeeds whenever a free candidate lies within its fuel
window. -/
theorem findFreeName_succeeds (names : List Str) (base ext : Str) :
    ∀ fuel lo, (∃ i, lo ≤ i ∧ i < lo + fuel ∧ candName base ext i ∉ names) →
      (findFreeName names base ext fuel lo).isSome = true := by
  intro fuel
  induction fuel with
  | zero =>
    rintro lo ⟨i, h1, h2, -⟩
    omega
  | succ fuel ih =>
    rintro lo ⟨i, h1, h2, h3⟩
    rw [findFreeName]
    split
    · rename_i hmem
      apply ih (lo + 1)
      refine ⟨i, ?_, by omega, h3⟩
      rcases Nat.eq_or_lt_of_le h1 with rfl | hlt
      · exact absurd hmem h3
      · omega
    · rfl

/-- The scan of `filepath.Ext` over the reversed filename: the suffix
from the last dot of the final path element, empty when there is
none. -/
def extAux : List Char → List Char → Option Str
  | [], _ => none
  | c :: rest, acc =>
    if c = '/' then none
    else if c = '.' then some (c :: acc)
    else extAux rest (c :: acc)

/-- Go `filepath.Ext`. -/
def goExt (name : Str) : Str := (extAux name.reverse []).getD []

/-- The collision handling of `FileHandler.DownloadToTask` for a chosen
filename: keep it when no file with that name exists in the task
directory, otherwise take the first free `base-<i><ext>`. -/
def chooseNameCore (fs : List (Str × Str)) (filename : Str) : Option Str :=
  if filename ∈ fs.map Prod.fst then
    findFreeName (fs.map Prod.fst)
      (filename.take (filename.length - (goExt filename).length))
      (goExt filename) (fs.length + 1) 1
  else some filename

/-- The filename selection of `FileHandler.DownloadToTask`: Slack's
filename (or the file ID when empty), then collision handling. -/
def chooseDownloadName (fs : List (Str × Str)) (file_name file_id : Str) : Option Str :=
  chooseNameCore fs (if file_name = [] then file_id else file_name)

/-- Go `FileHandler.DownloadToTask` over a task directory modelled as an
association list `filename → content`: choose a fresh name, create the
file and write the downloaded bytes.  Every other file is untouched. -/
def downloadToTask (fs : List (Str × Str)) (file_name file_id content : Str) :
    Option (List (Str × Str) × Str) :=
  (chooseDownloadName fs file_name file_id).map fun chosen =>
    ((chosen, content) :: fs, chosen)

/-- C10.  Attachment download never overwrites: the name selection
always succeeds (the auto-incrementing numeric suffix reaches a free
name within `|directory| + 1` tries), the selected name is not that of
any existing file, and after the download every file that existed in
the task directory before the call still holds its previous content. -/
theorem download_never_overwrites (fs : List (Str × Str)) (fname fid content : Str) :
    (chooseDownloadName fs fname fid).isSome = true
    ∧ (∀ chosen, chooseDownloadName fs fname fid = some chosen →
        chosen ∉ fs.map Prod.fst)
    ∧ (∀ fs' chosen g, downloadToTask fs fname fid content = some (fs', chosen) →
        g ∈ fs.map Prod.fst → List.lookup g fs' = List.lookup g fs) := by
  have hcore : ∀ filename : Str,
      (chooseNameCore fs filename).isSome = true
      ∧ ∀ chosen, chooseNameCore fs filename = some chosen →
          chosen ∉ fs.map Prod.fst := by
    intro filename
    constructor
    · rw [chooseNameCore]
      split
      · apply findFreeName_succeeds
        obtain ⟨i, h1, h2, h3⟩ := exists_free_cand (fs.map Prod.fst)
          (filename.take (filename.length - (goExt filename).length)) (goExt filename)
        rw [List.length_map] at h2
        exact ⟨i, h1, by omega, h3⟩
      · rfl
    · intro chosen h
      rw [chooseNameCore] at h
      split at h
      · exact findFreeName_not_mem _ _ _ _ _ chosen h
      · rename_i hmem
        obtain rfl := (Option.some.injEq _ _).mp h
        exact hmem
  have hfree : ∀ chosen, chooseDownloadName fs fname fid = some chosen →
      chosen ∉ fs.map Prod.fst := by
    intro chosen h
    rw [chooseDownloadName] at h
    exact (hcore _).2 chosen h
  have htot : (chooseDownloadName fs fname fid).isSome = true := by
    rw [chooseDownloadName]
    exact (hcore _).1
  refine ⟨htot, hfree, ?_⟩
  intro fs' chosen g hdl hg
  rw [downloadToTask] at hdl
  cases hch : chooseDownloadName fs fname fid with
  | none =>
    rw [hch] at hdl
    exact absurd hdl (by simp [Option.map])
  | some c =>
    rw [hch] at hdl
    simp only [Option.map] at hdl
    rw [Option.some.injEq, Prod.ext_iff] at hdl
    obtain ⟨h1, h2⟩ := hdl
    subst h2
    subst h1
    have hne : (g == c) = false := by
      rw [beq_eq_false_iff_ne]
      intro heq
      exact hfree c hch (heq ▸ hg)
    rw [List.lookup, hne]

/-- The task directory used in the C10 witness. -/
def fsC10 : List (Str × Str) := [("image.png".toList, "old".toList)]

/-- Witness for C10 at a concrete directory: downloading a second
`image.png` writes `image-1.png` and leaves the content stored under
`image.png` unchanged. -/
theorem download_never_overwrites_witness :
    downloadToTask fsC10 "image.png".toList "F123".toList "new".toList
      = some ((("image-1.png".toList, "new".toList) :: fsC10), "image-1.png".toList)
    ∧ List.lookup "image.png".toList (("image-1.png".toList, "new".toList) :: fsC10)
      = List.lookup "image.png".toList fsC10 :=
  ⟨by decide,
   (download_never_overwrites fsC10 "image.png".toList "F123".toList "new".toList).2.2
     (("image-1.png".toList, "new".toList) :: fsC10) "image-1.png".toList
     "image.png".toList (by decide) (by decide)⟩

end Clod
